import Mathlib

/-!
# kvpaxos: the replicated key/value state machine of `src/kvpaxos/server.go`

A shallow embedding of the server side of the key/value service: the command
record `Op`, the replica state `KVPaxos`, the handlers `Get` and `PutAppend`,
the log sequencer `makeAgreement`, the catch-up pass `updateDbAndGetValue`,
the applier `apply`, and the decision wait `checkStatus`; and, from
`src/kvpaxos/client.go`, the retry loop of `Clerk.Get`.

The Paxos engine (`kv.px`) is an external collaborator.  It is embedded as a
record of transition functions over an arbitrary engine state `E`; every call
may change the engine state, so that an engine whose answers vary with time
(other peers deciding slots concurrently) is an instance.

Go's `int` and `int64` are embedded as `Int`: slot numbers are only incremented
from `Max() + 1` and command-ids are only compared, so no operation of the
replica can reach the 64-bit bounds.  The sleep interval of `checkStatus` is a
`Nat` number of nanoseconds; it stays below `2 * 10 * Second`.
-/

set_option linter.dupNamespace false

namespace kvpaxos

/-! ## Data model -/

/-- Modelled from the spec: the `paxos.Fate` type of the absent `paxos` package.
The source names `Decided`, `Pending` and `Forgotten`; the spec adds `Unknown`
for a slot the engine has never heard of. -/
inductive Fate where
  | Decided
  | Pending
  | Forgotten
  | Unknown
  deriving DecidableEq, Repr

/-- Modelled from the spec: the `Err` type of the absent `common.go`.  The three
statuses are `OK`, `ErrNoKey` and `Timeout`; `unset` is the zero value of a
reply whose `Err` field was never assigned. -/
inductive Err where
  | unset
  | OK
  | ErrNoKey
  | Timeout
  deriving DecidableEq, Repr

/-- The `Op` struct (server.go:25-31): a command as stored in a Paxos slot. -/
structure Op where
  Key : String
  Value : String
  JID : Int
  Me : Int
  Op : String
  deriving DecidableEq, Repr

/-- The zero value `Op{}`: the no-op proposed by `learn` and returned by
`checkStatus` when it gives up. -/
def Op.zero : kvpaxos.Op := ⟨"", "", 0, 0, ""⟩

/-- Modelled from the spec: `GetArgs` of the absent `common.go`
(key, command-id `JID`, client-id `CID`). -/
structure GetArgs where
  Key : String
  JID : Int
  CID : Int
  deriving DecidableEq, Repr

/-- Modelled from the spec: `GetReply` of the absent `common.go`. -/
structure GetReply where
  Value : String
  Err : Err
  deriving DecidableEq, Repr

/-- The zero value of `GetReply`, as allocated for each incoming RPC. -/
def GetReply.zero : GetReply := ⟨"", Err.unset⟩

/-- Modelled from the spec: `PutAppendArgs` of the absent `common.go`. -/
structure PutAppendArgs where
  Key : String
  Value : String
  Op : String
  JID : Int
  deriving DecidableEq, Repr

/-- Modelled from the spec: `PutAppendReply` of the absent `common.go`. -/
structure PutAppendReply where
  Err : Err
  deriving DecidableEq, Repr

/-- The zero value of `PutAppendReply`. -/
def PutAppendReply.zero : PutAppendReply := ⟨Err.unset⟩

/-- The mutable fields of the `KVPaxos` struct (server.go:33-45).  Go maps are
functions: `replied` and `db` return `none` for an absent key; `applied` and
`log` only ever store `true`, and only the presence of a key is ever tested, so
they are the characteristic functions of their key sets. -/
structure KVPaxos where
  me : Int
  replied : Int → Option String
  applied : Int → Bool
  log : Int → Bool
  db : String → Option String
  processed : Int

/-- The state built by `StartServer` (server.go:261-267): empty maps,
`processed = 0`. -/
def KVPaxos.init (me : Int) : KVPaxos :=
  { me := me
    replied := fun _ => none
    applied := fun _ => false
    log := fun _ => false
    db := fun _ => none
    processed := 0 }

/-- The interface of the Paxos engine as listed in server.go:47-59, over an
engine state `E`.  Each call returns the engine state after the call.  `Sleep`
is `time.Sleep`: the engine keeps running while the replica sleeps. -/
structure Engine (E : Type) where
  Start : E → Int → Op → E
  Status : E → Int → (Fate × Op) × E
  Max : E → Int × E
  Done : E → Int → E
  Sleep : E → Nat → E

/-- `time.Millisecond`, in nanoseconds. -/
def Millisecond : Nat := 1000000

/-- `time.Second`, in nanoseconds. -/
def Second : Nat := 1000000000

/-! ## The replica's operations -/

section ops

variable {E : Type}

/-- The loop of `checkStatus` (server.go:194-206) with the current sleep
interval `to_` (the local `to`), which is positive at the only call site. -/
def checkStatusLoop (px : Engine E) (seq : Int) (to_ : Nat) (hto : 0 < to_) (e : E) :
    (Fate × Op) × E :=
  let r := px.Status e seq
  if r.1.1 = Fate.Decided then
    (r.1, r.2)
  else
    let e2 := px.Sleep r.2 to_
    if h : to_ < 10 * Second then
      checkStatusLoop px seq (to_ * 2) (by omega) e2
    else
      ((r.1.1, Op.zero), e2)
termination_by 10 * Second - to_
decreasing_by omega

/-- The function `checkStatus` (server.go:192-207). -/
def checkStatus (px : Engine E) (seq : Int) (e : E) : (Fate × Op) × E :=
  checkStatusLoop px seq (10 * Millisecond) (by decide) e

/-- The loop of `makeAgreement` (server.go:127-134), entered with the result
`(status, v)` of the latest decision wait at slot `seq`.  The loop has no bound
of its own, so it runs on `fuel` (one unit per test of the loop condition). -/
def makeAgreementLoop (px : Engine E) (op : Op) :
    Nat → Int → Fate → Op → E → Option (Bool × E)
  | 0, _, _, _, _ => none
  | fuel + 1, seq, status, v, e =>
    if v.JID ≠ op.JID then
      if status ≠ Fate.Decided then
        some (false, e)
      else
        let e1 := px.Start e (seq + 1) op
        let r := checkStatus px (seq + 1) e1
        makeAgreementLoop px op fuel (seq + 1) r.1.1 r.1.2 r.2
    else
      some (true, e)

/-- The function `makeAgreement` (server.go:124-137). -/
def makeAgreement (px : Engine E) (fuel : Nat) (seq : Int) (op : Op) (e : E) :
    Option (Bool × E) :=
  let e1 := px.Start e seq op
  let r := checkStatus px seq e1
  makeAgreementLoop px op fuel seq r.1.1 r.1.2 r.2

/-- Assignment `m[k] = v` on a Go map. -/
def mapSet {K V : Type} [DecidableEq K] (m : K → Option V) (k : K) (v : V) : K → Option V :=
  fun x => if x = k then some v else m x

/-- Assignment `m[k] = true` on a Go `map[int64]bool` used as a set. -/
def setAdd (m : Int → Bool) (k : Int) : Int → Bool :=
  fun x => if x = k then true else m x

/-- The function `apply` (server.go:169-179). -/
def apply (kv : KVPaxos) (v : Op) : KVPaxos :=
  if kv.applied v.JID then
    kv
  else
    let db :=
      if v.Op = "Put" then
        mapSet kv.db v.Key v.Value
      else if v.Op = "Append" then
        mapSet kv.db v.Key ((kv.db v.Key).getD "" ++ v.Value)
      else
        kv.db
    { kv with db := db, applied := setAdd kv.applied v.JID }

/-- The function `learn` (server.go:181-190). -/
def learn (px : Engine E) (seq : Int) (e : E) : (Fate × Op) × E :=
  let e1 := px.Start e seq Op.zero
  let r := checkStatus px seq e1
  if r.1.1 ≠ Fate.Decided then
    ((r.1.1, Op.zero), r.2)
  else
    (r.1, r.2)

/-- The loop of `updateDbAndGetValue` (server.go:143-157): `n` iterations over
the slots `seq, seq+1, ...`. -/
def updateLoop (px : Engine E) : Nat → Int → KVPaxos → E → KVPaxos × E
  | 0, _, kv, e => (kv, e)
  | n + 1, seq, kv, e =>
    let r := px.Status e seq
    if r.1.1 = Fate.Decided then
      updateLoop px n (seq + 1) (apply kv r.1.2) r.2
    else if r.1.1 ≠ Fate.Forgotten then
      let l := learn px seq r.2
      let kv1 := if l.1.2.Value ≠ "" then apply kv l.1.2 else kv
      updateLoop px n (seq + 1) kv1 l.2
    else
      updateLoop px n (seq + 1) kv r.2

/-- The function `updateDbAndGetValue` (server.go:139-167).  The loop
`for seq := start; seq < end; seq++` runs `end - start` times when
`start < end` and not at all otherwise. -/
def updateDbAndGetValue (px : Engine E) (kv : KVPaxos) (e : E) (key : String) :
    (String × Err) × KVPaxos × E :=
  let start := kv.processed
  let m := px.Max e
  let end_ := m.1
  let s := updateLoop px (end_ - start).toNat start kv m.2
  let kv1 := { s.1 with processed := end_ }
  let e1 := px.Done s.2 end_
  match kv1.db key with
  | none => (("", Err.ErrNoKey), kv1, e1)
  | some value => ((value, Err.OK), kv1, e1)

/-- The handler `Get` (server.go:61-96).  `reply` is the reply record the
handler is given; the result is the record as the handler leaves it. -/
def Get (px : Engine E) (fuel : Nat) (kv : KVPaxos) (e : E) (args : GetArgs)
    (reply : GetReply) : Option (GetReply × KVPaxos × E) :=
  if kv.log args.JID = false then
    let kv1 := { kv with log := setAdd kv.log args.JID }
    let op : Op := ⟨args.Key, "", args.JID, kv1.me, "Get"⟩
    let m := px.Max e
    let seq := m.1 + 1
    match makeAgreement px fuel seq op m.2 with
    | none => none
    | some (ok, e1) =>
      if ok = false then
        some ({ reply with Err := Err.Timeout }, kv1, e1)
      else
        let u := updateDbAndGetValue px kv1 e1 args.Key
        if u.1.2 = Err.OK then
          let kv2 := { u.2.1 with replied := mapSet u.2.1.replied args.CID u.1.1 }
          some ({ Value := u.1.1, Err := Err.OK }, kv2, u.2.2)
        else
          some ({ reply with Err := Err.ErrNoKey }, u.2.1, u.2.2)
  else
    match kv.replied args.CID with
    | some value => some ({ Value := value, Err := Err.OK }, kv, e)
    | none => some (reply, kv, e)

/-- The handler `PutAppend` (server.go:98-122). -/
def PutAppend (px : Engine E) (fuel : Nat) (kv : KVPaxos) (e : E) (args : PutAppendArgs)
    (_reply : PutAppendReply) : Option (PutAppendReply × KVPaxos × E) :=
  if kv.log args.JID = false then
    let kv1 := { kv with log := setAdd kv.log args.JID }
    let op : Op := ⟨args.Key, args.Value, args.JID, kv1.me, args.Op⟩
    let m := px.Max e
    let seq := m.1 + 1
    match makeAgreement px fuel seq op m.2 with
    | none => none
    | some (ok, e1) =>
      if ok = false then
        some ({ Err := Err.Timeout }, kv1, e1)
      else
        some ({ Err := Err.OK }, kv1, e1)
  else
    some ({ Err := Err.OK }, kv, e)

end ops

/-! ## Reference definitions used by the statements -/

/-- Applying a list of commands in order with `apply`. -/
def applyAll (kv : KVPaxos) (cs : List Op) : KVPaxos :=
  cs.foldl apply kv

/-- The list `cs` without the commands whose command-id is in `seen` or occurs
earlier in `cs`. -/
def dropRepeated : List Int → List Op → List Op
  | _, [] => []
  | seen, c :: cs =>
    if c.JID ∈ seen then dropRepeated seen cs
    else c :: dropRepeated (c.JID :: seen) cs

/-- The list `cs` from which every command whose command-id already occurred
earlier in the list has been removed. -/
def firstOccurrences (cs : List Op) : List Op :=
  dropRepeated [] cs

/-! ## A single replica over an engine that decides at once -/

/-- The state of an engine with one peer: the value decided at each slot, the
highest slot started (`-1` if none) and the highest argument given to `Done`
(`-1` if none). -/
structure InstantState where
  slots : Int → Option Op
  max : Int
  done : Int

/-- The engine state before any call. -/
def InstantState.init : InstantState :=
  { slots := fun _ => none, max := -1, done := -1 }

/-- The engine of the single-replica scenario: it decides, at once, the first
value started at each slot; `Max` is the highest slot started, or `-1`.  With
`forget = true` the engine discards every slot at or below the argument of `Done`
and reports it `Forgotten`; with `forget = false` it ignores `Done`. -/
def instantEngine (forget : Bool) : Engine InstantState where
  Start e seq v :=
    { e with
      slots := fun x => if x = seq then (match e.slots seq with
                                          | some w => some w
                                          | none => some v) else e.slots x
      max := if e.max < seq then seq else e.max }
  Status e seq :=
    if forget = true ∧ seq ≤ e.done then ((Fate.Forgotten, Op.zero), e)
    else match e.slots seq with
      | some v => ((Fate.Decided, v), e)
      | none => ((Fate.Pending, Op.zero), e)
  Max e := (e.max, e)
  Done e seq := { e with done := if e.done < seq then seq else e.done }
  Sleep e _ := e

/-- A client request: `Put` and `Append` carry key, value and command-id;
`Get` carries key, command-id and client-id. -/
inductive Request where
  | Put (key value : String) (jid : Int)
  | Append (key value : String) (jid : Int)
  | Get (key : String) (jid cid : Int)
  deriving DecidableEq, Repr

/-- The command-id of a request. -/
def Request.JID : Request → Int
  | Request.Put _ _ jid => jid
  | Request.Append _ _ jid => jid
  | Request.Get _ jid _ => jid

/-- The reply to a request. -/
inductive Reply where
  | get (r : GetReply)
  | putAppend (r : PutAppendReply)
  deriving DecidableEq, Repr

/-- One request handled by the replica: the RPC layer hands the handler a
zero-valued reply record. -/
def serve {E : Type} (px : Engine E) (fuel : Nat) (kv : KVPaxos) (e : E) :
    Request → Option (Reply × KVPaxos × E)
  | Request.Put key value jid =>
    (PutAppend px fuel kv e ⟨key, value, "Put", jid⟩ PutAppendReply.zero).map
      fun r => (Reply.putAppend r.1, r.2)
  | Request.Append key value jid =>
    (PutAppend px fuel kv e ⟨key, value, "Append", jid⟩ PutAppendReply.zero).map
      fun r => (Reply.putAppend r.1, r.2)
  | Request.Get key jid cid =>
    (Get px fuel kv e ⟨key, jid, cid⟩ GetReply.zero).map
      fun r => (Reply.get r.1, r.2)

/-- Requests handled one after another; the replies and the final state. -/
def serveAll {E : Type} (px : Engine E) (fuel : Nat) :
    KVPaxos → E → List Request → Option (List Reply × KVPaxos × E)
  | kv, e, [] => some ([], kv, e)
  | kv, e, r :: rs =>
    match serve px fuel kv e r with
    | none => none
    | some (rep, kv1, e1) =>
      (serveAll px fuel kv1 e1 rs).map fun t => (rep :: t.1, t.2)

/-- The effect of a request on a plain key/value map, following the spec: `Put`
sets the value, `Append` extends the value (empty if absent), `Get` changes
nothing. -/
def refApply (st : String → Option String) : Request → String → Option String
  | Request.Put key value _ => mapSet st key value
  | Request.Append key value _ => mapSet st key ((st key).getD "" ++ value)
  | Request.Get _ _ _ => st

/-- The key/value map obtained from `st` by the requests `rs` in issue order. -/
def refStore (st : String → Option String) (rs : List Request) : String → Option String :=
  rs.foldl refApply st

/-- The reply the spec prescribes to a request issued when the previously issued
requests have produced the map `st`. -/
def refReply (st : String → Option String) : Request → Reply
  | Request.Put _ _ _ => Reply.putAppend ⟨Err.OK⟩
  | Request.Append _ _ _ => Reply.putAppend ⟨Err.OK⟩
  | Request.Get key _ _ =>
    match st key with
    | some v => Reply.get ⟨v, Err.OK⟩
    | none => Reply.get ⟨"", Err.ErrNoKey⟩

/-- The replies the spec prescribes to the requests `rs` issued one after
another from the map `st`. -/
def refReplies (st : String → Option String) : List Request → List Reply
  | [] => []
  | r :: rs => refReply st r :: refReplies (refApply st r) rs

/-- The command the handlers of replica `me` build for a request. -/
def Request.toOp (me : Int) : Request → Op
  | Request.Put key value jid => ⟨key, value, jid, me, "Put"⟩
  | Request.Append key value jid => ⟨key, value, jid, me, "Append"⟩
  | Request.Get key jid _ => ⟨key, "", jid, me, "Get"⟩

/-- The log in which slot `i` holds the `i`-th command of `ops`. -/
def slotsOf (ops : List Op) : Int → Option Op :=
  fun i => if 0 ≤ i then ops[i.toNat]? else none

/-- The joint state of the replica `me` and of the engine that decides at once,
after the requests `h1 ++ h2` have been served with pairwise distinct
command-ids: the log holds their commands in issue order, and the catch-up
passes have covered exactly `h1`. -/
structure SeqInv (me : Int) (kv : KVPaxos) (e : InstantState) (h1 h2 : List Request) :
    Prop where
  me_eq : kv.me = me
  slots_eq : e.slots = slotsOf ((h1 ++ h2).map (Request.toOp me))
  max_eq : e.max = ((h1 ++ h2).length : Int) - 1
  log_sub : ∀ j, kv.log j = true → j ∈ (h1 ++ h2).map Request.JID
  processed_eq : kv.processed = (h1.length : Int)
  applied_sub : ∀ j, kv.applied j = true → j ∈ h1.map Request.JID
  db_eq : kv.db = refStore (fun _ => none) h1
  done_le : e.done ≤ (h1.length : Int)
  done_get : e.done = (h1.length : Int) → ∃ key jid cid t, h2 = Request.Get key jid cid :: t

/-! ## Recording the calls made to the engine -/

/-- A call made to the engine (or to `time.Sleep`), with the answer of the
engine for `Status` and `Max`. -/
inductive Event where
  | Start (seq : Int) (v : Op)
  | Status (seq : Int) (fate : Fate) (v : Op)
  | Max (result : Int)
  | Done (seq : Int)
  | Sleep (d : Nat)
  deriving DecidableEq, Repr

/-- The engine `px` with a record of the calls made to it, oldest first.  The
answers are those of `px`. -/
def traced {E : Type} (px : Engine E) : Engine (E × List Event) where
  Start s seq v := (px.Start s.1 seq v, s.2 ++ [Event.Start seq v])
  Status s seq :=
    ((px.Status s.1 seq).1,
      ((px.Status s.1 seq).2, s.2 ++ [Event.Status seq (px.Status s.1 seq).1.1
        (px.Status s.1 seq).1.2]))
  Max s := ((px.Max s.1).1, ((px.Max s.1).2, s.2 ++ [Event.Max (px.Max s.1).1]))
  Done s seq := (px.Done s.1 seq, s.2 ++ [Event.Done seq])
  Sleep s d := (px.Sleep s.1 d, s.2 ++ [Event.Sleep d])

/-- An engine cut off from every peer: it never decides anything; every slot
stays `Pending` and `Max` stays `-1`. -/
def deadEngine : Engine Unit where
  Start _ _ _ := ()
  Status _ _ := ((Fate.Pending, Op.zero), ())
  Max _ := (-1, ())
  Done _ _ := ()
  Sleep _ _ := ()

/-! ## Reference definitions for the catch-up pass -/

/-- The answers the engine gives when the `n` slots `seq, seq+1, ...` are
polled in ascending order, starting from the engine state `e`. -/
def scanAnswers {E : Type} (px : Engine E) : Nat → Int → E → List (Fate × Op)
  | 0, _, _ => []
  | n + 1, seq, e => (px.Status e seq).1 :: scanAnswers px n (seq + 1) (px.Status e seq).2

/-- The engine state after the `n` slots `seq, seq+1, ...` have been polled. -/
def scanEnd {E : Type} (px : Engine E) : Nat → Int → E → E
  | 0, _, e => e
  | n + 1, seq, e => scanEnd px n (seq + 1) (px.Status e seq).2

/-- The commands of the answers that are `Decided`, in order. -/
def decidedOps (answers : List (Fate × Op)) : List Op :=
  (answers.filter fun a => a.1 = Fate.Decided).map fun a => a.2

/-- The `Status` calls, one per answer, on the slots `seq, seq+1, ...`. -/
def statusEvents : Int → List (Fate × Op) → List Event
  | _, [] => []
  | seq, a :: rest => Event.Status seq a.1 a.2 :: statusEvents (seq + 1) rest

/-! ## Engines and runs used as concrete inputs -/

/-- An engine in which a peer's command `c` wins slot 0 as soon as anything is
proposed: the slot is `Pending` until the first `Start` and `Decided` with `c`
afterwards.  The engine maximum is 1.  The state says whether `Start` has been
called. -/
def lateEngine (c : Op) : Engine Bool where
  Start _ _ _ := true
  Status e _ := if e = true then ((Fate.Decided, c), e) else ((Fate.Pending, Op.zero), e)
  Max e := (1, e)
  Done e _ := e
  Sleep e _ := e

/-- The log of an engine that forgets on `Done`, in which peers have had
`Put(a,1)` decided at slot 0 and `Put(b,2)` at slot 1. -/
def peerLog : InstantState :=
  (instantEngine true).Start
    ((instantEngine true).Start InstantState.init 0 ⟨"a", "1", 11, 1, "Put"⟩)
    1 ⟨"b", "2", 12, 1, "Put"⟩

/-- A first catch-up pass of a fresh replica over `peerLog`, with the calls
recorded. -/
def peerLogPass1 : (String × Err) × KVPaxos × (InstantState × List Event) :=
  updateDbAndGetValue (traced (instantEngine true)) (KVPaxos.init 0) (peerLog, []) "b"

/-- A second catch-up pass, after a peer has had `Put(c,3)` decided at
slot 2. -/
def peerLogPass2 : (String × Err) × KVPaxos × (InstantState × List Event) :=
  updateDbAndGetValue (traced (instantEngine true)) peerLogPass1.2.1
    ((traced (instantEngine true)).Start peerLogPass1.2.2 2 ⟨"c", "3", 13, 1, "Put"⟩) "b"

/-- An engine that is slow to decide slot 0: the slot is `Pending` until the
replica has slept 11 times and `Decided` with a peer's `Put(a,1)` from then on.
The engine maximum is 1.  The state counts the sleeps. -/
def slowEngine : Engine Nat where
  Start e _ _ := e
  Status e seq :=
    if seq = 0 ∧ 11 ≤ e then ((Fate.Decided, ⟨"a", "1", 5, 1, "Put"⟩), e)
    else ((Fate.Pending, Op.zero), e)
  Max e := (1, e)
  Done e _ := e
  Sleep e _ := e + 1

/-- A first catch-up pass of a fresh replica over `slowEngine`. -/
def slowPass1 : (String × Err) × KVPaxos × Nat :=
  updateDbAndGetValue slowEngine (KVPaxos.init 0) 0 "a"

/-- A second catch-up pass, from the state left by the first. -/
def slowPass2 : (String × Err) × KVPaxos × Nat :=
  updateDbAndGetValue slowEngine slowPass1.2.1 slowPass1.2.2 "a"

/-- A busy engine: slot 11 is decided with a peer's command whatever is
proposed there, every other slot is decided with the last value started, and
the engine maximum is 10 before the first `Start` and 20 after it (peers have
moved on).  The state is the last value started. -/
def crowdedEngine : Engine (Option Op) where
  Start _ _ v := some v
  Status e seq :=
    if seq = 11 then ((Fate.Decided, ⟨"x", "9", 99, 1, "Put"⟩), e)
    else match e with
      | some v => ((Fate.Decided, v), e)
      | none => ((Fate.Pending, Op.zero), e)
  Max e := (if e.isSome then 20 else 10, e)
  Done e _ := e
  Sleep e _ := e

/-! ## Sequences of calls -/

/-- The engines whose `Max()` never decreases over time and is at least every
slot passed to `Start`: `known e` is the highest slot the engine has observed in
state `e`; `Max` answers at least `known`, what it answers is known afterwards,
no call makes `known` decrease, and `Start` makes the started slot known. -/
structure MaxContract {E : Type} (px : Engine E) (known : E → Int) : Prop where
  max_ge : ∀ e, known e ≤ (px.Max e).1
  max_known : ∀ e, (px.Max e).1 ≤ known (px.Max e).2
  start_mono : ∀ e s v, known e ≤ known (px.Start e s v)
  start_ge : ∀ e s v, s ≤ known (px.Start e s v)
  status_mono : ∀ e s, known e ≤ known (px.Status e s).2
  done_mono : ∀ e d, known e ≤ known (px.Done e d)
  sleep_mono : ∀ e d, known e ≤ known (px.Sleep e d)

/-- A call of one of the two handlers. -/
inductive Call where
  | Get (args : GetArgs)
  | PutAppend (args : PutAppendArgs)
  deriving DecidableEq, Repr

/-- The replica and engine state after a call, given a zero-valued reply
record; `none` when `fuel` does not let the call return. -/
def call {E : Type} (px : Engine E) (fuel : Nat) (kv : KVPaxos) (e : E) :
    Call → Option (KVPaxos × E)
  | Call.Get args => (Get px fuel kv e args GetReply.zero).map fun r => r.2
  | Call.PutAppend args => (PutAppend px fuel kv e args PutAppendReply.zero).map fun r => r.2

/-- The Applied frontier after each call of a sequence, each call with its own
fuel; the sequence ends at the first call that does not return. -/
def frontiers {E : Type} (px : Engine E) : KVPaxos → E → List (Nat × Call) → List Int
  | _, _, [] => []
  | kv, e, c :: rest =>
    match call px c.1 kv e c.2 with
    | none => []
    | some s => s.1.processed :: frontiers px s.1 s.2 rest

/-! ## The client stub (client.go) -/

/-- The loop of `Clerk.Get` (client.go:77-84) as a function of the outcomes of
its successive `call`s: `none` is a call that failed in transport and left
`reply` as it was, `some r` a call that filled `reply` with `r`.  The result is
`none` when the outcomes run out while the loop is still retrying. -/
def Clerk.GetLoop (reply : GetReply) : List (Option GetReply) → Option String
  | [] => none
  | o :: rest =>
    let reply1 := match o with
      | some r => r
      | none => reply
    if reply1.Err = Err.OK then
      some reply1.Value
    else if reply1.Err = Err.Timeout ∨ reply1.Err = Err.ErrNoKey then
      some ""
    else
      Clerk.GetLoop reply1 rest

/-- The function `Clerk.Get` (client.go:69-86): the loop starts from the
zero-valued `reply`. -/
def Clerk.Get (outcomes : List (Option GetReply)) : Option String :=
  Clerk.GetLoop GetReply.zero outcomes

/-! ## Reference definitions for the decision wait -/

/-- The decision wait over a schedule of sleep intervals `d :: rest`: poll the
slot; on `Decided` return the answer of the engine; on a miss sleep the next
interval of the schedule and go on; after the last interval give up, with the
status of the last poll and the zero command. -/
def waitOn {E : Type} (px : Engine E) (seq : Int) : Nat → List Nat → E → (Fate × Op) × E
  | d, rest, e =>
    if (px.Status e seq).1.1 = Fate.Decided then
      px.Status e seq
    else
      match rest with
      | [] => (((px.Status e seq).1.1, Op.zero), px.Sleep (px.Status e seq).2 d)
      | d1 :: rest1 => waitOn px seq d1 rest1 (px.Sleep (px.Status e seq).2 d)

/-- The intervals `rest` that follow the interval `d` when each interval below
ten seconds is followed by its double and an interval of ten seconds or more is
the last. -/
def Doubling : Nat → List Nat → Prop
  | d, [] => ¬ d < 10 * Second
  | d, d1 :: rest => d < 10 * Second ∧ d1 = d * 2 ∧ Doubling d1 rest

/-- The sleep intervals after the first one of ten milliseconds, in
milliseconds: ten doublings. -/
def backoffTailMs : List Nat := [20, 40, 80, 160, 320, 640, 1280, 2560, 5120, 10240]

/-- The sleep intervals of a decision wait that never sees `Decided`, in
nanoseconds. -/
def backoff : List Nat := (10 :: backoffTailMs).map fun ms => ms * Millisecond

/-- The calls of a run of misses: each miss is a `Status` call with its answer
followed by a sleep of the next interval. -/
def missEvents (seq : Int) : List (Fate × Op) → List Nat → List Event
  | a :: rest, d :: ds => Event.Status seq a.1 a.2 :: Event.Sleep d :: missEvents seq rest ds
  | _, _ => []

/-- The sleep intervals among recorded calls, in order. -/
def sleepsOf : List Event → List Nat
  | [] => []
  | Event.Sleep d :: rest => d :: sleepsOf rest
  | _ :: rest => sleepsOf rest

/-- The slots polled by `Status` among recorded calls, in order. -/
def pollsOf : List Event → List Int
  | [] => []
  | Event.Status seq _ _ :: rest => seq :: pollsOf rest
  | _ :: rest => pollsOf rest

/-- The proposals among recorded calls, in order: slot and value of each
`Start`. -/
def startsOf : List Event → List (Int × Op)
  | [] => []
  | Event.Start seq v :: rest => (seq, v) :: startsOf rest
  | _ :: rest => startsOf rest

/-- The answers of the `Max` calls among recorded calls, in order. -/
def maxesOf : List Event → List Int
  | [] => []
  | Event.Max m :: rest => m :: maxesOf rest
  | _ :: rest => maxesOf rest

/-! ## Theorems -/

/-! ### The applier -/

theorem apply_of_applied (kv : KVPaxos) (c : Op) (h : kv.applied c.JID = true) :
    apply kv c = kv := by
  simp [apply, h]

theorem apply_applied_self (kv : KVPaxos) (c : Op) : (apply kv c).applied c.JID = true := by
  unfold apply
  by_cases h : kv.applied c.JID = true
  · simp [h]
  · simp [h, setAdd]

theorem apply_applied_mono (kv : KVPaxos) (c : Op) (j : Int) (h : kv.applied j = true) :
    (apply kv c).applied j = true := by
  unfold apply
  by_cases hc : kv.applied c.JID = true
  · simp [hc, h]
  · simp [hc, setAdd, h]

/-- C2: `apply` equals its reference definition.  A command whose command-id is
already in the Applied set changes nothing.  Otherwise the Applied set gains
exactly that command-id; `Put` sets `Store[key]` to the value; `Append` sets it
to the old value (empty if absent) followed by the value; any other kind leaves
the Store as it is; every other key keeps its value; and no other field of the
replica changes in any case. -/
theorem apply_eq_reference (kv : KVPaxos) (c : Op) :
    (kv.applied c.JID = true → apply kv c = kv) ∧
    (kv.applied c.JID = false →
      (∀ j, (apply kv c).applied j = true ↔ (j = c.JID ∨ kv.applied j = true)) ∧
      (c.Op = "Put" → (apply kv c).db c.Key = some c.Value) ∧
      (c.Op = "Append" →
        (apply kv c).db c.Key = some ((kv.db c.Key).getD "" ++ c.Value)) ∧
      (c.Op ≠ "Put" → c.Op ≠ "Append" → (apply kv c).db = kv.db) ∧
      (∀ k, k ≠ c.Key → (apply kv c).db k = kv.db k)) ∧
    ((apply kv c).replied = kv.replied ∧ (apply kv c).log = kv.log ∧
      (apply kv c).processed = kv.processed ∧ (apply kv c).me = kv.me) := by
  refine ⟨apply_of_applied kv c, ?_, ?_⟩
  · intro h
    refine ⟨?_, ?_, ?_, ?_, ?_⟩
    · intro j
      by_cases hj : j = c.JID <;> simp [apply, h, setAdd, hj]
    · intro hp
      simp [apply, h, hp, mapSet]
    · intro ha
      have hne : c.Op ≠ "Put" := by rw [ha]; decide
      simp [apply, h, ha, mapSet]
    · intro hp ha
      simp [apply, h, hp, ha]
    · intro k hk
      unfold apply
      simp only [h, Bool.false_eq_true, if_false]
      split_ifs <;> simp [mapSet, hk]
  · unfold apply
    split_ifs <;> simp

/-! ### Retry idempotence -/

theorem applyAll_dropRepeated (cs : List Op) :
    ∀ (seen : List Int) (kv : KVPaxos), (∀ j ∈ seen, kv.applied j = true) →
      applyAll kv cs = applyAll kv (dropRepeated seen cs) := by
  induction cs with
  | nil => intro seen kv _; rfl
  | cons c cs ih =>
    intro seen kv hseen
    by_cases hc : c.JID ∈ seen
    · have h1 : apply kv c = kv := apply_of_applied kv c (hseen _ hc)
      simp only [dropRepeated, hc, if_true]
      rw [← ih seen kv hseen]
      simp [applyAll, List.foldl_cons, h1]
    · simp only [dropRepeated, hc, if_false]
      simp only [applyAll, List.foldl_cons]
      apply ih (c.JID :: seen) (apply kv c)
      intro j hj
      rcases List.mem_cons.mp hj with rfl | hj
      · exact apply_applied_self kv c
      · exact apply_applied_mono kv c j (hseen j hj)

theorem applyAll_replicate_succ (kv : KVPaxos) (c : Op) (n : Nat) :
    applyAll kv (List.replicate (n + 1) c) = apply kv c := by
  induction n with
  | zero => simp [applyAll]
  | succ n ih =>
    have h : List.replicate (n + 1 + 1) c = List.replicate (n + 1) c ++ [c] := by
      simp [List.replicate_succ', List.replicate_add]
    rw [h]
    unfold applyAll at ih ⊢
    rw [List.foldl_append, ih]
    simp only [List.foldl_cons, List.foldl_nil]
    exact apply_of_applied _ _ (apply_applied_self kv c)

/-- C3: retry idempotence.  From every starting state, applying a list of
commands in order gives the same replica state (hence the same Store and the
same Applied set) as applying the list without the commands whose command-id
already occurred earlier in it; and applying one command `n + 1` times in a row
gives the same state as applying it once. -/
theorem apply_retry_idempotent (kv : KVPaxos) (cs : List Op) :
    (applyAll kv cs).db = (applyAll kv (firstOccurrences cs)).db ∧
    (applyAll kv cs).applied = (applyAll kv (firstOccurrences cs)).applied ∧
    applyAll kv cs = applyAll kv (firstOccurrences cs) ∧
    (∀ (c : Op) (n : Nat),
      (applyAll kv (List.replicate (n + 1) c)).db = (apply kv c).db ∧
      applyAll kv (List.replicate (n + 1) c) = apply kv c) := by
  have h := applyAll_dropRepeated cs [] kv (by simp)
  refine ⟨?_, ?_, h, ?_⟩
  · exact congrArg KVPaxos.db h
  · exact congrArg KVPaxos.applied h
  · intro c n
    have h2 := applyAll_replicate_succ kv c n
    exact ⟨congrArg KVPaxos.db h2, h2⟩

/-! ### Decision wait and sequencing when the slot is decided at once -/

section

variable {E : Type}

theorem checkStatusLoop_of_decided (px : Engine E) (seq : Int) (to_ : Nat) (hto : 0 < to_) (e : E)
    (h : (px.Status e seq).1.1 = Fate.Decided) :
    checkStatusLoop px seq to_ hto e = px.Status e seq := by
  rw [checkStatusLoop]
  simp [h]

theorem checkStatus_of_decided (px : Engine E) (seq : Int) (e : E)
    (h : (px.Status e seq).1.1 = Fate.Decided) :
    checkStatus px seq e = px.Status e seq :=
  checkStatusLoop_of_decided px seq _ _ e h

theorem makeAgreement_of_decided (px : Engine E) (fuel : Nat) (seq : Int) (op : Op) (e : E)
    (h : (px.Status (px.Start e seq op) seq).1.1 = Fate.Decided)
    (hj : (px.Status (px.Start e seq op) seq).1.2.JID = op.JID) :
    makeAgreement px (fuel + 1) seq op e = some (true, (px.Status (px.Start e seq op) seq).2) := by
  simp [makeAgreement, checkStatus_of_decided px seq _ h, makeAgreementLoop, hj]
end

/-! ### The engine that decides at once -/

theorem slotsOf_append_length (a b : List Op) (x : Op) :
    slotsOf (a ++ x :: b) (a.length : Int) = some x := by
  have h : (a ++ x :: b)[a.length]? = some x := by
    rw [List.getElem?_append_right (le_refl _)]
    simp
  simpa [slotsOf] using h

theorem slotsOf_length (a : List Op) : slotsOf a (a.length : Int) = none := by
  simp [slotsOf]

theorem instant_start_fresh (forget : Bool) (e : InstantState) (ops : List Op) (op : Op)
    (hs : e.slots = slotsOf ops) (hm : e.max = (ops.length : Int) - 1) :
    (instantEngine forget).Start e (e.max + 1) op =
      { e with slots := slotsOf (ops ++ [op]), max := (ops.length : Int) } := by
  have h1 : e.max + 1 = (ops.length : Int) := by omega
  simp only [instantEngine, h1, hs, slotsOf_length]
  congr 1
  · funext x
    by_cases hx : x = (ops.length : Int)
    · subst hx
      simp [slotsOf]
    · simp only [hx, if_false]
      unfold slotsOf
      by_cases h0 : 0 ≤ x
      · simp only [h0, if_true]
        have : x.toNat ≠ ops.length := by omega
        rcases Nat.lt_or_gt_of_ne this with hlt | hgt
        · rw [List.getElem?_append_left hlt]
        · rw [List.getElem?_eq_none (by omega), List.getElem?_eq_none (by simp; omega)]
      · simp [h0]
  · rw [hm]; simp

theorem instant_status_decided (forget : Bool) (e : InstantState) (seq : Int) (v : Op)
    (hs : e.slots seq = some v) (hd : ¬ (forget = true ∧ seq ≤ e.done)) :
    (instantEngine forget).Status e seq = ((Fate.Decided, v), e) := by
  simp only [instantEngine, hd, if_false, hs]

theorem instant_status_forgotten (e : InstantState) (seq : Int) (hd : seq ≤ e.done) :
    (instantEngine true).Status e seq = ((Fate.Forgotten, Op.zero), e) := by
  simp [instantEngine, hd]

theorem refStore_cons (st : String → Option String) (r : Request) (rs : List Request) :
    refStore st (r :: rs) = refStore (refApply st r) rs := rfl

theorem apply_toOp_db (me : Int) (kv : KVPaxos) (r : Request)
    (h : kv.applied r.JID = false) : (apply kv (r.toOp me)).db = refApply kv.db r := by
  cases r <;> simp [apply, Request.toOp, Request.JID, refApply] at h ⊢ <;> simp [h]

theorem apply_applied_cases (kv : KVPaxos) (c : Op) (j : Int)
    (h : (apply kv c).applied j = true) : j = c.JID ∨ kv.applied j = true := by
  unfold apply at h
  by_cases hc : kv.applied c.JID = true
  · simp [hc] at h; exact Or.inr h
  · simp only [hc, Bool.false_eq_true, if_false, setAdd] at h
    by_cases hj : j = c.JID
    · exact Or.inl hj
    · simp [hj] at h; exact Or.inr h

theorem apply_frame (kv : KVPaxos) (c : Op) :
    (apply kv c).me = kv.me ∧ (apply kv c).replied = kv.replied ∧
      (apply kv c).log = kv.log ∧ (apply kv c).processed = kv.processed := by
  unfold apply
  split_ifs <;> simp

theorem toOp_JID (me : Int) (r : Request) : (r.toOp me).JID = r.JID := by
  cases r <;> rfl

theorem updateLoop_instant (forget : Bool) (me : Int) (e : InstantState) (h3 : List Request) :
    ∀ (h2 h1 : List Request) (kv : KVPaxos),
      e.slots = slotsOf ((h1 ++ h2 ++ h3).map (Request.toOp me)) →
      ((h1 ++ h2).map Request.JID).Nodup →
      (∀ j, kv.applied j = true → j ∈ h1.map Request.JID) →
      e.done ≤ (h1.length : Int) →
      (e.done = (h1.length : Int) → h2 = [] ∨ ∃ key jid cid t, h2 = Request.Get key jid cid :: t) →
      ∃ kv1, updateLoop (instantEngine forget) h2.length (h1.length : Int) kv e = (kv1, e) ∧
        kv1.db = refStore kv.db h2 ∧
        (∀ j, kv1.applied j = true → j ∈ (h1 ++ h2).map Request.JID) ∧
        kv1.me = kv.me ∧ kv1.replied = kv.replied ∧ kv1.log = kv.log ∧
        kv1.processed = kv.processed := by
  intro h2
  induction h2 with
  | nil =>
    intro h1 kv _ _ ha _ _
    exact ⟨kv, rfl, rfl, by simpa using ha, rfl, rfl, rfl, rfl⟩
  | cons r t ih =>
    intro h1 kv hs hnd ha hdl hdg
    have hslot : e.slots (h1.length : Int) = some (r.toOp me) := by
      rw [hs]
      have := slotsOf_append_length (h1.map (Request.toOp me)) ((t ++ h3).map (Request.toOp me))
        (r.toOp me)
      simpa using this
    have hs' : e.slots = slotsOf ((h1 ++ [r] ++ t ++ h3).map (Request.toOp me)) := by
      rw [hs]; simp
    have hnd' : (((h1 ++ [r]) ++ t).map Request.JID).Nodup := by simpa using hnd
    have hlen : ((h1 ++ [r]).length : Int) = (h1.length : Int) + 1 := by simp
    have hdl' : e.done ≤ ((h1 ++ [r]).length : Int) := by omega
    have hdg' : e.done = ((h1 ++ [r]).length : Int) →
        t = [] ∨ ∃ key jid cid t', t = Request.Get key jid cid :: t' := by
      intro h; omega
    have hfresh : kv.applied r.JID = false := by
      by_contra hc
      have hc' : kv.applied r.JID = true := by simpa using hc
      have hmem := ha _ hc'
      have hnd2 : (h1.map Request.JID ++ r.JID :: t.map Request.JID).Nodup := by
        simpa using hnd
      have := (List.nodup_append.mp hnd2).2.2
      exact this hmem (List.mem_cons_self _ _)
    by_cases hf : forget = true ∧ (h1.length : Int) ≤ e.done
    · -- the slot has been forgotten: it holds a Get, which leaves the store as it is
      obtain ⟨hft, hle⟩ := hf
      subst hft
      have hd : e.done = (h1.length : Int) := by omega
      rcases hdg hd with hnil | ⟨key, jid, cid, t', hcons⟩
      · cases hnil
      · obtain ⟨rfl, rfl⟩ := List.cons.inj hcons
        obtain ⟨kv1, hrun, hdb, hap, hme, hrep, hlog, hpr⟩ :=
          ih (h1 ++ [Request.Get key jid cid]) kv hs' hnd'
            (fun j hj => by simpa using Or.inl (ha j hj)) hdl' hdg'
        refine ⟨kv1, ?_, ?_, ?_, hme, hrep, hlog, hpr⟩
        · simp only [List.length_cons, updateLoop]
          rw [instant_status_forgotten e _ hle]
          simp only [reduceCtorEq, if_false, ne_eq, not_true_eq_false]
          rw [← hlen]; exact hrun
        · rw [hdb]; rfl
        · intro j hj; simpa using hap j hj
    · obtain ⟨kv1, hrun, hdb, hap, hme, hrep, hlog, hpr⟩ :=
        ih (h1 ++ [r]) (apply kv (r.toOp me)) hs' hnd'
          (fun j hj => by
            rcases apply_applied_cases kv _ j hj with h | h
            · rw [toOp_JID] at h; simp [h]
            · simpa using Or.inl (ha j h)) hdl' hdg'
      obtain ⟨fme, frep, flog, fpr⟩ := apply_frame kv (r.toOp me)
      refine ⟨kv1, ?_, ?_, ?_, hme.trans fme, hrep.trans frep, hlog.trans flog, hpr.trans fpr⟩
      · simp only [List.length_cons, updateLoop]
        rw [instant_status_decided forget e _ _ hslot hf]
        simp only [if_true]
        rw [← hlen]; exact hrun
      · rw [hdb, apply_toOp_db me kv r hfresh]; rfl
      · intro j hj; simpa using hap j hj

theorem refStore_append (st : String → Option String) (a b : List Request) :
    refStore st (a ++ b) = refStore (refStore st a) b := by
  simp [refStore, List.foldl_append]

theorem seqInv_init (me : Int) : SeqInv me (KVPaxos.init me) InstantState.init [] [] where
  me_eq := rfl
  slots_eq := by
    funext i
    simp [InstantState.init, slotsOf]
  max_eq := by simp [InstantState.init]
  log_sub := by simp [KVPaxos.init]
  processed_eq := by simp [KVPaxos.init]
  applied_sub := by simp [KVPaxos.init]
  db_eq := rfl
  done_le := by simp [InstantState.init]
  done_get := by simp [InstantState.init]

/-- Sequencing a command of a fresh command-id succeeds at the first free slot. -/
theorem seqInv_agree (forget : Bool) (me : Int) (kv : KVPaxos) (e : InstantState)
    (h1 h2 : List Request) (inv : SeqInv me kv e h1 h2) (fuel : Nat) (r : Request) :
    ∃ e1, makeAgreement (instantEngine forget) (fuel + 1)
        (((instantEngine forget).Max e).1 + 1) (r.toOp me) ((instantEngine forget).Max e).2
        = some (true, e1) ∧
      e1.slots = slotsOf ((h1 ++ (h2 ++ [r])).map (Request.toOp me)) ∧
      e1.max = ((h1 ++ (h2 ++ [r])).length : Int) - 1 ∧
      e1.done = e.done := by
  have hmax : (instantEngine forget).Max e = (e.max, e) := rfl
  rw [hmax]
  have hst := instant_start_fresh forget e _ (r.toOp me) inv.slots_eq
    (by simpa using inv.max_eq)
  simp only at hst ⊢
  have hseq : e.max + 1 = (((h1 ++ h2).map (Request.toOp me)).length : Int) := by
    have := inv.max_eq
    simp at this ⊢
    omega
  have hstatus : (instantEngine forget).Status
      ((instantEngine forget).Start e (e.max + 1) (r.toOp me)) (e.max + 1) =
      ((Fate.Decided, r.toOp me), (instantEngine forget).Start e (e.max + 1) (r.toOp me)) := by
    apply instant_status_decided
    · rw [hst, hseq]
      exact slotsOf_append_length _ [] _
    · rw [hst]
      simp only [not_and]
      intro _
      have hle := inv.done_le
      have hg := inv.done_get
      simp only [List.length_map, List.length_append] at hseq
      intro hcon
      have : e.done = (h1.length : Int) := by omega
      obtain ⟨key, jid, cid, t, ht⟩ := hg this
      subst ht
      simp at hseq
      omega
  refine ⟨(instantEngine forget).Start e (e.max + 1) (r.toOp me), ?_, ?_, ?_, ?_⟩
  · have := makeAgreement_of_decided (instantEngine forget) fuel (e.max + 1) (r.toOp me) e
      (by rw [hstatus]) (by rw [hstatus])
    rw [this, hstatus]
  · rw [hst]; simp
  · rw [hst]; simp; omega
  · rw [hst]

theorem seqInv_fresh_log (me : Int) (kv : KVPaxos) (e : InstantState)
    (h1 h2 : List Request) (inv : SeqInv me kv e h1 h2) (j : Int)
    (hj : j ∉ (h1 ++ h2).map Request.JID) : kv.log j = false := by
  by_contra hc
  exact hj (inv.log_sub j (by simpa using hc))

theorem setAdd_mem (m : Int → Bool) (k j : Int) (h : setAdd m k j = true) :
    j = k ∨ m j = true := by
  unfold setAdd at h
  by_cases hj : j = k
  · exact Or.inl hj
  · simp [hj] at h; exact Or.inr h

/-- A `Put` or `Append` of a fresh command-id is logged at the next slot and
answered `OK`. -/
theorem putAppend_step (forget : Bool) (me : Int) (kv : KVPaxos) (e : InstantState)
    (h1 h2 : List Request) (inv : SeqInv me kv e h1 h2) (fuel : Nat)
    (key value kind : String) (jid : Int) (r : Request)
    (hr : r.toOp me = ⟨key, value, jid, me, kind⟩) (hrj : r.JID = jid)
    (hj : jid ∉ (h1 ++ h2).map Request.JID) :
    ∃ kv1 e1, PutAppend (instantEngine forget) (fuel + 1) kv e ⟨key, value, kind, jid⟩
        PutAppendReply.zero = some (⟨Err.OK⟩, kv1, e1) ∧
      SeqInv me kv1 e1 h1 (h2 ++ [r]) := by
  obtain ⟨e1, hag, hsl, hmx, hdn⟩ := seqInv_agree forget me kv e h1 h2 inv fuel r
  have hlog := seqInv_fresh_log me kv e h1 h2 inv jid hj
  refine ⟨{ kv with log := setAdd kv.log jid }, e1, ?_, ?_⟩
  · unfold PutAppend
    simp only [hlog, if_true, inv.me_eq]
    rw [← hr, hag]
    simp
  · refine ⟨inv.me_eq, hsl, hmx, ?_, inv.processed_eq, inv.applied_sub, inv.db_eq, ?_, ?_⟩
    · intro j hjl
      rcases setAdd_mem _ _ _ hjl with h | h
      · subst h; simp [hrj]
      · have := inv.log_sub j h
        simp only [List.map_append, List.mem_append] at this ⊢
        rcases this with h | h
        · exact Or.inl h
        · exact Or.inr (Or.inl h)
    · rw [hdn]; exact inv.done_le
    · rw [hdn]
      intro hd
      obtain ⟨k, j, c, t, ht⟩ := inv.done_get hd
      exact ⟨k, j, c, t ++ [r], by simp [ht]⟩

/-! ### Unfolding the handlers -/

section

variable {E : Type}

/-- The catch-up pass in terms of its loop. -/
theorem updateDbAndGetValue_eq (px : Engine E) (kv : KVPaxos) (e : E) (key : String)
    (s : KVPaxos × E)
    (hs : updateLoop px ((px.Max e).1 - kv.processed).toNat kv.processed kv (px.Max e).2 = s) :
    (updateDbAndGetValue px kv e key).2.1 = { s.1 with processed := (px.Max e).1 } ∧
    (updateDbAndGetValue px kv e key).2.2 = px.Done s.2 (px.Max e).1 ∧
    (updateDbAndGetValue px kv e key).1 =
      (match s.1.db key with
        | none => ("", Err.ErrNoKey)
        | some value => (value, Err.OK)) := by
  subst hs
  unfold updateDbAndGetValue
  simp only
  split <;> simp_all

/-- The handler `Get` on a command-id it has not seen, when sequencing
succeeds. -/
theorem Get_of_agreed (px : Engine E) (fuel : Nat) (kv : KVPaxos) (e : E) (args : GetArgs)
    (reply : GetReply) (e1 : E) (kv0 : KVPaxos)
    (hkv0 : kv0 = { kv with log := setAdd kv.log args.JID })
    (hlog : kv.log args.JID = false)
    (hag : makeAgreement px fuel ((px.Max e).1 + 1) ⟨args.Key, "", args.JID, kv.me, "Get"⟩
      (px.Max e).2 = some (true, e1)) :
    Get px fuel kv e args reply =
      some (if (updateDbAndGetValue px kv0 e1 args.Key).1.2 = Err.OK then
          ({ Value := (updateDbAndGetValue px kv0 e1 args.Key).1.1, Err := Err.OK },
           { (updateDbAndGetValue px kv0 e1 args.Key).2.1 with
             replied := mapSet (updateDbAndGetValue px kv0 e1 args.Key).2.1.replied args.CID
               (updateDbAndGetValue px kv0 e1 args.Key).1.1 },
           (updateDbAndGetValue px kv0 e1 args.Key).2.2)
        else
          ({ reply with Err := Err.ErrNoKey },
           (updateDbAndGetValue px kv0 e1 args.Key).2.1,
           (updateDbAndGetValue px kv0 e1 args.Key).2.2)) := by
  subst hkv0
  unfold Get
  simp only [hlog, if_true, hag, Bool.true_eq_false, if_false]
  split <;> rfl

/-- The handler `Get` on a command-id it has not seen, when sequencing fails. -/
theorem Get_of_not_agreed (px : Engine E) (fuel : Nat) (kv : KVPaxos) (e : E) (args : GetArgs)
    (reply : GetReply) (e1 : E)
    (hlog : kv.log args.JID = false)
    (hag : makeAgreement px fuel ((px.Max e).1 + 1) ⟨args.Key, "", args.JID, kv.me, "Get"⟩
      (px.Max e).2 = some (false, e1)) :
    Get px fuel kv e args reply =
      some ({ reply with Err := Err.Timeout }, { kv with log := setAdd kv.log args.JID }, e1) := by
  unfold Get
  simp only [hlog, if_true, hag]

/-- The handler `Get` on a command-id it has already seen. -/
theorem Get_of_seen (px : Engine E) (fuel : Nat) (kv : KVPaxos) (e : E) (args : GetArgs)
    (reply : GetReply) (hlog : kv.log args.JID = true) :
    Get px fuel kv e args reply =
      some ((match kv.replied args.CID with
              | some value => { Value := value, Err := Err.OK }
              | none => reply), kv, e) := by
  unfold Get
  simp only [hlog, Bool.true_eq_false, if_false]
  split <;> rfl

/-- The handler `PutAppend` on a command-id it has not seen. -/
theorem PutAppend_of_unseen (px : Engine E) (fuel : Nat) (kv : KVPaxos) (e : E)
    (args : PutAppendArgs) (reply : PutAppendReply) (hlog : kv.log args.JID = false) :
    PutAppend px fuel kv e args reply =
      (makeAgreement px fuel ((px.Max e).1 + 1)
        ⟨args.Key, args.Value, args.JID, kv.me, args.Op⟩ (px.Max e).2).map
        fun r => (if r.1 = false then ⟨Err.Timeout⟩ else ⟨Err.OK⟩,
          { kv with log := setAdd kv.log args.JID }, r.2) := by
  unfold PutAppend
  simp only [hlog, if_true]
  split
  · next h => simp [h]
  · next ok e1 h =>
    simp only [h, Option.map_some']
    split <;> rfl

/-- The handler `PutAppend` on a command-id it has already seen. -/
theorem PutAppend_of_seen (px : Engine E) (fuel : Nat) (kv : KVPaxos) (e : E)
    (args : PutAppendArgs) (reply : PutAppendReply) (hlog : kv.log args.JID = true) :
    PutAppend px fuel kv e args reply = some (⟨Err.OK⟩, kv, e) := by
  unfold PutAppend
  simp only [hlog, Bool.true_eq_false, if_false]

end

/-- A `Get` of a fresh command-id is logged at the next slot; its catch-up pass
brings the store up to date with every request issued before, and the reply is
read from that store. -/
theorem get_step (forget : Bool) (me : Int) (kv : KVPaxos) (e : InstantState)
    (h1 h2 : List Request) (inv : SeqInv me kv e h1 h2) (fuel : Nat)
    (key : String) (jid cid : Int)
    (hnd : ((h1 ++ h2).map Request.JID).Nodup)
    (hj : jid ∉ (h1 ++ h2).map Request.JID) :
    ∃ kv1 e1, Get (instantEngine forget) (fuel + 1) kv e ⟨key, jid, cid⟩ GetReply.zero
        = some ((match refStore (fun _ => none) (h1 ++ h2) key with
                  | some v => ⟨v, Err.OK⟩
                  | none => ⟨"", Err.ErrNoKey⟩), kv1, e1) ∧
      SeqInv me kv1 e1 (h1 ++ h2) [Request.Get key jid cid] := by
  obtain ⟨e1, hag, hsl, hmx, hdn⟩ :=
    seqInv_agree forget me kv e h1 h2 inv fuel (Request.Get key jid cid)
  have hlog := seqInv_fresh_log me kv e h1 h2 inv jid hj
  have hsl3 : e1.slots = slotsOf ((h1 ++ h2 ++ [Request.Get key jid cid]).map
      (Request.toOp me)) := by rw [hsl]; simp
  obtain ⟨kv0, hkv0⟩ : ∃ kv0 : KVPaxos, kv0 = { kv with log := setAdd kv.log jid } := ⟨_, rfl⟩
  have h0me : kv0.me = kv.me := by rw [hkv0]
  have h0log : kv0.log = setAdd kv.log jid := by rw [hkv0]
  have h0db : kv0.db = kv.db := by rw [hkv0]
  have h0ap : kv0.applied = kv.applied := by rw [hkv0]
  have h0pr : kv0.processed = kv.processed := by rw [hkv0]
  obtain ⟨kvs, hrun, hdb, hap, hme, hrep, hlg, hpr⟩ :=
    updateLoop_instant forget me e1 [Request.Get key jid cid] h2 h1 kv0 hsl3 hnd
      (by rw [h0ap]; exact inv.applied_sub)
      (by rw [hdn]; exact inv.done_le)
      (by rw [hdn]; intro hd; exact Or.inr (inv.done_get hd))
  have hmax1 : e1.max = (h1.length : Int) + (h2.length : Int) := by
    rw [hmx]; simp; omega
  have hM : (instantEngine forget).Max e1 = (e1.max, e1) := rfl
  have hcount : (((instantEngine forget).Max e1).1 - kv0.processed).toNat = h2.length := by
    rw [hM, h0pr, inv.processed_eq, hmax1]; simp
  have hstore : kvs.db = refStore (fun _ => none) (h1 ++ h2) := by
    rw [hdb, refStore_append, h0db, inv.db_eq]
  have hloop : updateLoop (instantEngine forget)
      (((instantEngine forget).Max e1).1 - kv0.processed).toNat kv0.processed kv0
      ((instantEngine forget).Max e1).2 = (kvs, e1) := by
    rw [hcount, h0pr, inv.processed_eq]; exact hrun
  obtain ⟨hu1, hu2, hu3⟩ := updateDbAndGetValue_eq (instantEngine forget) kv0 e1 key _ hloop
  have hdone : (instantEngine forget).Done e1 e1.max = { e1 with done := e1.max } := by
    have hle := inv.done_le
    simp only [instantEngine]
    by_cases hlt : e1.done < e1.max
    · simp [hlt]
    · have : e1.done = e1.max := by omega
      simp [this]
  have hinv : ∀ (rp : Int → Option String),
      SeqInv me { kvs with processed := e1.max, replied := rp } ({ e1 with done := e1.max })
        (h1 ++ h2) [Request.Get key jid cid] := by
    intro rp
    refine ⟨?_, hsl3, ?_, ?_, ?_, hap, hstore, ?_, ?_⟩
    · simp only [hme, h0me, inv.me_eq]
    · simp only [hmx]; simp
    · intro j hjl
      simp only [hlg, h0log] at hjl
      rcases setAdd_mem _ _ _ hjl with h | h
      · subst h; simp [Request.JID]
      · have := inv.log_sub j h
        simp only [List.map_append, List.mem_append] at this ⊢
        exact Or.inl this
    · simp only [hmax1]; simp
    · simp only [hmax1]; simp
    · intro _; exact ⟨key, jid, cid, [], rfl⟩
  have hag2 : makeAgreement (instantEngine forget) (fuel + 1)
      (((instantEngine forget).Max e).1 + 1) ⟨key, "", jid, kv.me, "Get"⟩
      ((instantEngine forget).Max e).2 = some (true, e1) := by
    rw [inv.me_eq]; exact hag
  rw [Get_of_agreed (instantEngine forget) (fuel + 1) kv e ⟨key, jid, cid⟩ GetReply.zero e1 kv0
    hkv0 hlog hag2]
  simp only [hu1, hu2, hu3, hM, hdone, ← hstore]
  cases hk : kvs.db key with
  | none =>
    refine ⟨_, _, ?_, hinv kvs.replied⟩
    simp [GetReply.zero]
  | some v =>
    refine ⟨_, _, ?_, hinv (mapSet kvs.replied cid v)⟩
    simp

theorem serveAll_instant (forget : Bool) (me : Int) (fuel : Nat) :
    ∀ (rs : List Request) (kv : KVPaxos) (e : InstantState) (h1 h2 : List Request),
      SeqInv me kv e h1 h2 → ((h1 ++ h2 ++ rs).map Request.JID).Nodup →
      ∃ kv1 e1, serveAll (instantEngine forget) (fuel + 1) kv e rs =
        some (refReplies (refStore (fun _ => none) (h1 ++ h2)) rs, kv1, e1) := by
  intro rs
  induction rs with
  | nil => intro kv e h1 h2 _ _; exact ⟨kv, e, rfl⟩
  | cons r rs ih =>
    intro kv e h1 h2 inv hnd
    have hnd1 : ((h1 ++ h2).map Request.JID ++ r.JID :: rs.map Request.JID).Nodup := by
      simpa using hnd
    have hnd12 : ((h1 ++ h2).map Request.JID).Nodup := (List.nodup_append.mp hnd1).1
    have hfresh : r.JID ∉ (h1 ++ h2).map Request.JID := by
      intro hmem
      exact (List.nodup_append.mp hnd1).2.2 hmem (List.mem_cons_self _ _)
    have hstep : ∃ kv1 e1 g1 g2, serve (instantEngine forget) (fuel + 1) kv e r =
        some (refReply (refStore (fun _ => none) (h1 ++ h2)) r, kv1, e1) ∧
        SeqInv me kv1 e1 g1 g2 ∧ g1 ++ g2 = h1 ++ h2 ++ [r] := by
      cases r with
      | Put key value jid =>
        obtain ⟨kv1, e1, hrun, inv1⟩ := putAppend_step forget me kv e h1 h2 inv fuel
          key value "Put" jid (Request.Put key value jid) rfl rfl hfresh
        exact ⟨kv1, e1, h1, h2 ++ [Request.Put key value jid],
          by simp [serve, hrun, refReply], inv1, by simp⟩
      | Append key value jid =>
        obtain ⟨kv1, e1, hrun, inv1⟩ := putAppend_step forget me kv e h1 h2 inv fuel
          key value "Append" jid (Request.Append key value jid) rfl rfl hfresh
        exact ⟨kv1, e1, h1, h2 ++ [Request.Append key value jid],
          by simp [serve, hrun, refReply], inv1, by simp⟩
      | Get key jid cid =>
        obtain ⟨kv1, e1, hrun, inv1⟩ := get_step forget me kv e h1 h2 inv fuel
          key jid cid hnd12 hfresh
        refine ⟨kv1, e1, h1 ++ h2, [Request.Get key jid cid], ?_, inv1, rfl⟩
        simp only [serve, hrun, refReply, Option.map_some']
        split <;> rfl
    obtain ⟨kv1, e1, g1, g2, hrun, inv1, hg⟩ := hstep
    have hnd' : ((g1 ++ g2 ++ rs).map Request.JID).Nodup := by
      rw [hg]; simpa using hnd
    obtain ⟨kv2, e2, hrest⟩ := ih kv1 e1 g1 g2 inv1 hnd'
    refine ⟨kv2, e2, ?_⟩
    have hst : refStore (fun _ => none) (g1 ++ g2) =
        refApply (refStore (fun _ => none) (h1 ++ h2)) r := by
      rw [hg, refStore_append]; rfl
    simp only [serveAll, hrun, hrest, Option.map_some', refReplies, hst]

/-- The scenario of the spec: `Put(a,1)`, `Get(a)`, `Append(a,2)`, `Get(a)`,
`Get(b)`, with command-ids 11 to 15 and client-id 7. -/
theorem scenario_nodup :
    ([Request.Put "a" "1" 11, Request.Get "a" 12 7, Request.Append "a" "2" 13,
      Request.Get "a" 14 7, Request.Get "b" 15 7].map Request.JID).Nodup := by
  decide

/-- C1: single-replica sequential correctness.  One replica starts from the
empty state over an engine that decides at once the first value started at each
slot (whether or not it forgets the slots released by `Done`).  For every list
of `Put`/`Append`/`Get` requests with pairwise distinct command-ids served one
after another (with at least one unit of sequencing fuel), every `Put` and
`Append` is answered `OK` and every `Get(k)` is answered `(v, OK)` with `v` the
value of `k` after the previously issued `Put`s and `Append`s applied in issue
order, or `ErrNoKey` with the empty value when none of them touched `k`. -/
theorem single_replica_sequential_correct (forget : Bool) (me : Int) (fuel : Nat)
    (rs : List Request) (hdistinct : (rs.map Request.JID).Nodup) :
    (serveAll (instantEngine forget) (fuel + 1) (KVPaxos.init me) InstantState.init rs).map
      (fun t => t.1) = some (refReplies (fun _ => none) rs) := by
  obtain ⟨kv1, e1, h⟩ := serveAll_instant forget me fuel rs (KVPaxos.init me)
    InstantState.init [] [] (seqInv_init me) (by simpa using hdistinct)
  rw [h]
  rfl

/-- C1, witness: the scenario of the spec on the single replica: `Put(a,1)` gives `OK`,
`Get(a)` gives `1`, `Append(a,2)` gives `OK`, `Get(a)` gives `12`, `Get(b)`
gives `ErrNoKey` with the empty value. -/
theorem single_replica_sequential_correct_witness :
    ([Request.Put "a" "1" 11, Request.Get "a" 12 7, Request.Append "a" "2" 13,
      Request.Get "a" 14 7, Request.Get "b" 15 7].map Request.JID).Nodup ∧
    (serveAll (instantEngine true) 1 (KVPaxos.init 0) InstantState.init
      [Request.Put "a" "1" 11, Request.Get "a" 12 7, Request.Append "a" "2" 13,
        Request.Get "a" 14 7, Request.Get "b" 15 7]).map (fun t => t.1) =
      some [Reply.putAppend ⟨Err.OK⟩, Reply.get ⟨"1", Err.OK⟩, Reply.putAppend ⟨Err.OK⟩,
        Reply.get ⟨"12", Err.OK⟩, Reply.get ⟨"", Err.ErrNoKey⟩] :=
  ⟨scenario_nodup,
   (single_replica_sequential_correct true 0 0 _ scenario_nodup).trans (by decide)⟩

/-! ### The decision wait in general -/

section

variable {E : Type}

/-- The decision wait ends in one of two ways: on a `Status` call that answered
`Decided`, whose answer and engine state it returns; or, having given up, with
a status other than `Decided` and the zero command. -/
theorem checkStatusLoop_cases (px : Engine E) (seq : Int) :
    ∀ (n : Nat) (to_ : Nat) (hto : 0 < to_) (e : E), 10 * Second - to_ = n →
      ((checkStatusLoop px seq to_ hto e).1.1 = Fate.Decided ∧
        ∃ e0, px.Status e0 seq = checkStatusLoop px seq to_ hto e) ∨
      ((checkStatusLoop px seq to_ hto e).1.1 ≠ Fate.Decided ∧
        (checkStatusLoop px seq to_ hto e).1.2 = Op.zero) := by
  intro n
  induction n using Nat.strong_induction_on with
  | _ n ih =>
    intro to_ hto e hn
    rw [checkStatusLoop]
    by_cases hd : (px.Status e seq).1.1 = Fate.Decided
    · left
      simp only [hd, if_true]
      exact ⟨trivial, e, rfl⟩
    · simp only [hd, if_false]
      by_cases hlt : to_ < 10 * Second
      · simp only [hlt, dite_true]
        exact ih (10 * Second - to_ * 2) (by omega) (to_ * 2) (by omega) _ rfl
      · right
        simp only [hlt, dite_false]
        exact ⟨hd, trivial⟩

theorem checkStatus_cases (px : Engine E) (seq : Int) (e : E) :
    ((checkStatus px seq e).1.1 = Fate.Decided ∧
      ∃ e0, px.Status e0 seq = checkStatus px seq e) ∨
    ((checkStatus px seq e).1.1 ≠ Fate.Decided ∧ (checkStatus px seq e).1.2 = Op.zero) :=
  checkStatusLoop_cases px seq _ _ _ e rfl

/-- Over an engine that never answers `Decided` for the slot, the decision wait
gives up. -/
theorem checkStatus_of_never_decided (px : Engine E) (seq : Int) (e : E)
    (h : ∀ e0, (px.Status e0 seq).1.1 ≠ Fate.Decided) :
    (checkStatus px seq e).1.1 ≠ Fate.Decided ∧ (checkStatus px seq e).1.2 = Op.zero := by
  rcases checkStatus_cases px seq e with ⟨hd, e0, he0⟩ | hr
  · exact absurd (by rw [he0]; exact hd) (h e0)
  · exact hr

/-- When the sequencer reports success for a command whose command-id is not
zero, the last call it made to the engine is a `Status` call that answered
`Decided` with a command of that command-id. -/
theorem makeAgreementLoop_decided (px : Engine E) (op : Op) (hj : op.JID ≠ 0) :
    ∀ (fuel : Nat) (seq : Int) (status : Fate) (v : Op) (e e1 : E),
      ((status = Fate.Decided ∧ ∃ e0, px.Status e0 seq = ((status, v), e)) ∨ v = Op.zero) →
      makeAgreementLoop px op fuel seq status v e = some (true, e1) →
      ∃ e0 s w, px.Status e0 s = ((Fate.Decided, w), e1) ∧ w.JID = op.JID := by
  intro fuel
  induction fuel with
  | zero => intro seq status v e e1 _ h; simp [makeAgreementLoop] at h
  | succ fuel ih =>
    intro seq status v e e1 hpre h
    unfold makeAgreementLoop at h
    by_cases hv : v.JID = op.JID
    · simp only [hv, ne_eq, not_true_eq_false, if_false, Option.some.injEq,
        Prod.mk.injEq, true_and] at h
      subst h
      rcases hpre with ⟨hs, e0, he0⟩ | hz
      · subst hs
        exact ⟨e0, seq, v, he0, hv⟩
      · subst hz
        exact absurd hv.symm hj
    · simp only [hv, ne_eq, not_false_eq_true, if_true] at h
      by_cases hs : status = Fate.Decided
      · simp only [hs, not_true_eq_false, if_false] at h
        refine ih (seq + 1) _ _ _ e1 ?_ h
        rcases checkStatus_cases px (seq + 1) (px.Start e (seq + 1) op) with ⟨hd, e0, he0⟩ | hr
        · exact Or.inl ⟨hd, e0, he0⟩
        · exact Or.inr hr.2
      · simp [hs] at h

theorem makeAgreement_decided (px : Engine E) (op : Op) (hj : op.JID ≠ 0)
    (fuel : Nat) (seq : Int) (e e1 : E)
    (h : makeAgreement px fuel seq op e = some (true, e1)) :
    ∃ e0 s w, px.Status e0 s = ((Fate.Decided, w), e1) ∧ w.JID = op.JID := by
  unfold makeAgreement at h
  refine makeAgreementLoop_decided px op hj fuel seq _ _ _ e1 ?_ h
  rcases checkStatus_cases px seq (px.Start e seq op) with ⟨hd, e0, he0⟩ | hr
  · exact Or.inl ⟨hd, e0, he0⟩
  · exact Or.inr hr.2

end

/-! ### PutAppend and the consensus log -/

theorem traced_status_trace {E : Type} (px : Engine E) (s0 s1 : E × List Event) (seq : Int)
    (fate : Fate) (w : Op) (h : (traced px).Status s0 seq = ((fate, w), s1)) :
    s1.2 = s0.2 ++ [Event.Status seq fate w] := by
  simp only [traced, Prod.mk.injEq] at h
  obtain ⟨h1, h2⟩ := h
  rw [← h2]
  simp only
  rw [h1]

theorem deadEngine_makeAgreement (seq : Int) (op : Op) (hj : op.JID ≠ 0) :
    makeAgreement deadEngine 1 seq op () = some (false, ()) := by
  have hc := checkStatus_of_never_decided deadEngine seq (deadEngine.Start () seq op)
    (by intro e0; simp [deadEngine])
  unfold makeAgreement
  simp only
  generalize checkStatus deadEngine seq (deadEngine.Start () seq op) = r at hc
  obtain ⟨⟨status, v⟩, u⟩ := r
  obtain ⟨h1, h2⟩ := hc
  simp only at h1 h2
  subst h2
  have h0 : Op.zero.JID ≠ op.JID := fun h => hj h.symm
  simp only [makeAgreementLoop, ne_eq, h0, not_false_eq_true, if_true, h1]

/-- C4, counterexample: over an engine that never decides anything, the first
delivery of `Put(a,1)` with command-id 7 to a fresh replica is answered
`Timeout` and leaves the command-id in the Seen set; the retry of the same
request is answered `OK`, although no slot of the engine is `Decided`. -/
theorem putAppend_ok_without_decision :
    PutAppend deadEngine 1 (KVPaxos.init 0) () ⟨"a", "1", "Put", 7⟩ PutAppendReply.zero =
      some (⟨Err.Timeout⟩,
        { KVPaxos.init 0 with log := setAdd (KVPaxos.init 0).log 7 }, ()) ∧
    (PutAppend deadEngine 1 { KVPaxos.init 0 with log := setAdd (KVPaxos.init 0).log 7 } ()
      ⟨"a", "1", "Put", 7⟩ PutAppendReply.zero).map (fun r => r.1) = some ⟨Err.OK⟩ ∧
    ∀ (e : Unit) (s : Int), (deadEngine.Status e s).1.1 ≠ Fate.Decided := by
  refine ⟨?_, ?_, ?_⟩
  · rw [PutAppend_of_unseen _ _ _ _ _ _ rfl]
    have hm : (deadEngine.Max ()) = (-1, ()) := rfl
    rw [hm, deadEngine_makeAgreement _ _ (by decide)]
    rfl
  · rw [PutAppend_of_seen _ _ _ _ _ _ (by decide)]
    rfl
  · intro e s
    simp [deadEngine]

/-- C4, amended: for every replica state, every engine and every `PutAppend`
request whose command-id is not zero and not in the Seen set, if the reply is
`OK` then the last call made to the engine during the request is a `Status`
call that answered `Decided` with a command carrying the request's
command-id. -/
theorem putAppend_ok_decided {E : Type} (px : Engine E) (fuel : Nat) (kv : KVPaxos) (e : E)
    (t : List Event) (args : PutAppendArgs) (reply : PutAppendReply)
    (hunseen : kv.log args.JID = false) (hjid : args.JID ≠ 0)
    (hok : (PutAppend (traced px) fuel kv (e, t) args reply).map (fun r => r.1.Err)
      = some Err.OK) :
    ∃ res, PutAppend (traced px) fuel kv (e, t) args reply = some res ∧
      ∃ t0 s v, res.2.2.2 = t0 ++ [Event.Status s Fate.Decided v] ∧ v.JID = args.JID := by
  rw [PutAppend_of_unseen _ _ _ _ _ _ hunseen] at hok ⊢
  cases hm : makeAgreement (traced px) fuel (((traced px).Max (e, t)).1 + 1)
      ⟨args.Key, args.Value, args.JID, kv.me, args.Op⟩ ((traced px).Max (e, t)).2 with
  | none => simp [hm] at hok
  | some r =>
    obtain ⟨ok, e1⟩ := r
    cases ok with
    | false => simp [hm] at hok
    | true =>
      obtain ⟨e0, s, w, hst, hw⟩ := makeAgreement_decided (traced px) _ hjid fuel _ _ e1 hm
      refine ⟨_, rfl, e0.2, s, w, ?_, hw⟩
      exact traced_status_trace px e0 e1 s _ w hst

/-- C4, witness: a `Put` with command-id 11 on a fresh replica over the engine
that decides at once: the reply is `OK` and the call ends on the `Decided`
answer for it. -/
theorem putAppend_ok_decided_witness :
    (KVPaxos.init 0).log 11 = false ∧ (11 : Int) ≠ 0 ∧
    (PutAppend (traced (instantEngine false)) 1 (KVPaxos.init 0) (InstantState.init, [])
      ⟨"a", "1", "Put", 11⟩ PutAppendReply.zero).map (fun r => r.1.Err) = some Err.OK ∧
    ∃ res, PutAppend (traced (instantEngine false)) 1 (KVPaxos.init 0) (InstantState.init, [])
        ⟨"a", "1", "Put", 11⟩ PutAppendReply.zero = some res ∧
      ∃ t0 s v, res.2.2.2 = t0 ++ [Event.Status s Fate.Decided v] ∧ v.JID = 11 := by
  have hok : (PutAppend (traced (instantEngine false)) 1 (KVPaxos.init 0)
      (InstantState.init, []) ⟨"a", "1", "Put", 11⟩ PutAppendReply.zero).map
      (fun r => r.1.Err) = some Err.OK := by
    rw [PutAppend_of_unseen _ _ _ _ _ _ rfl,
      makeAgreement_of_decided _ 0 _ _ _ (by decide) (by decide)]
    rfl
  exact ⟨rfl, by decide, hok,
    putAppend_ok_decided (instantEngine false) 1 (KVPaxos.init 0) InstantState.init []
      ⟨"a", "1", "Put", 11⟩ PutAppendReply.zero rfl (by decide) hok⟩

/-! ### Get -/

section

variable {E : Type}

/-- The catch-up loop changes only the Store and the Applied set. -/
theorem updateLoop_frame (px : Engine E) :
    ∀ (n : Nat) (seq : Int) (kv : KVPaxos) (e : E),
      (updateLoop px n seq kv e).1.me = kv.me ∧
      (updateLoop px n seq kv e).1.replied = kv.replied ∧
      (updateLoop px n seq kv e).1.log = kv.log ∧
      (updateLoop px n seq kv e).1.processed = kv.processed := by
  intro n
  induction n with
  | zero => intro seq kv e; exact ⟨rfl, rfl, rfl, rfl⟩
  | succ n ih =>
    intro seq kv e
    unfold updateLoop
    simp only
    split_ifs with h1 h2 h3
    · obtain ⟨a, b, c, d⟩ := ih (seq + 1) (apply kv (px.Status e seq).1.2) (px.Status e seq).2
      obtain ⟨a1, b1, c1, d1⟩ := apply_frame kv (px.Status e seq).1.2
      exact ⟨a.trans a1, b.trans b1, c.trans c1, d.trans d1⟩
    · obtain ⟨a, b, c, d⟩ := ih (seq + 1) (apply kv (learn px seq (px.Status e seq).2).1.2)
        (learn px seq (px.Status e seq).2).2
      obtain ⟨a1, b1, c1, d1⟩ := apply_frame kv (learn px seq (px.Status e seq).2).1.2
      exact ⟨a.trans a1, b.trans b1, c.trans c1, d.trans d1⟩
    · exact ih _ _ _
    · exact ih _ _ _

/-- The catch-up pass changes only the Store, the Applied set and the
frontier. -/
theorem updateDbAndGetValue_frame (px : Engine E) (kv : KVPaxos) (e : E) (key : String) :
    (updateDbAndGetValue px kv e key).2.1.me = kv.me ∧
    (updateDbAndGetValue px kv e key).2.1.replied = kv.replied ∧
    (updateDbAndGetValue px kv e key).2.1.log = kv.log ∧
    (updateDbAndGetValue px kv e key).2.1.processed = (px.Max e).1 := by
  obtain ⟨h1, _, _⟩ := updateDbAndGetValue_eq px kv e key _ rfl
  obtain ⟨a, b, c, _⟩ := updateLoop_frame px ((px.Max e).1 - kv.processed).toNat
    kv.processed kv (px.Max e).2
  rw [h1]
  exact ⟨a, b, c, rfl⟩

/-- The result of the catch-up pass is read from the Store the pass leaves. -/
theorem updateDbAndGetValue_result (px : Engine E) (kv : KVPaxos) (e : E) (key : String) :
    (updateDbAndGetValue px kv e key).1 =
      (match (updateDbAndGetValue px kv e key).2.1.db key with
        | none => ("", Err.ErrNoKey)
        | some value => (value, Err.OK)) := by
  obtain ⟨h1, _, h3⟩ := updateDbAndGetValue_eq px kv e key _ rfl
  rw [h3, h1]

/-- C5: a `Get` whose command-id is not in the Seen set and whose sequencing
succeeds returns, and with `Store'` the Store left by the catch-up pass it runs
(which is the Store of the replica when the handler returns): if the key is
present in `Store'` the reply is `(Store'[key], OK)` and the Result cache entry
of the request's client-id is that value (the other entries are unchanged); if
the key is absent the reply has status `ErrNoKey`, its value is the one the
reply record came with (the empty string for the zero-valued record of an RPC),
and the Result cache is unchanged. -/
theorem get_unseen_reply (px : Engine E) (fuel : Nat) (kv : KVPaxos) (e : E) (args : GetArgs)
    (reply : GetReply) (e1 : E)
    (hunseen : kv.log args.JID = false)
    (hag : makeAgreement px fuel ((px.Max e).1 + 1) ⟨args.Key, "", args.JID, kv.me, "Get"⟩
      (px.Max e).2 = some (true, e1)) :
    ∃ res, Get px fuel kv e args reply = some res ∧
      res.2.1.db =
        (updateDbAndGetValue px { kv with log := setAdd kv.log args.JID } e1 args.Key).2.1.db ∧
      (∀ v, res.2.1.db args.Key = some v →
        res.1 = ⟨v, Err.OK⟩ ∧ res.2.1.replied args.CID = some v ∧
        ∀ c, c ≠ args.CID → res.2.1.replied c = kv.replied c) ∧
      (res.2.1.db args.Key = none →
        res.1.Err = Err.ErrNoKey ∧ res.1.Value = reply.Value ∧
        (reply = GetReply.zero → res.1 = ⟨"", Err.ErrNoKey⟩) ∧
        res.2.1.replied = kv.replied) := by
  obtain ⟨kv0, hkv0⟩ : ∃ kv0 : KVPaxos, kv0 = { kv with log := setAdd kv.log args.JID } :=
    ⟨_, rfl⟩
  rw [Get_of_agreed px fuel kv e args reply e1 kv0 hkv0 hunseen hag, ← hkv0]
  have hres := updateDbAndGetValue_result px kv0 e1 args.Key
  obtain ⟨_, hrep, _, _⟩ := updateDbAndGetValue_frame px kv0 e1 args.Key
  have hrep0 : kv0.replied = kv.replied := by rw [hkv0]
  generalize updateDbAndGetValue px kv0 e1 args.Key = u at hres hrep
  obtain ⟨⟨value, err⟩, kvu, eu⟩ := u
  simp only at hres hrep ⊢
  cases hk : kvu.db args.Key with
  | none =>
    rw [hk] at hres
    simp only [Prod.mk.injEq] at hres
    obtain ⟨hv, he⟩ := hres
    subst hv he
    refine ⟨_, rfl, ?_, ?_, ?_⟩
    · simp
    · intro v hv
      simp [hk] at hv
    · intro _
      simp only [reduceCtorEq, if_false]
      refine ⟨trivial, trivial, ?_, hrep.trans hrep0⟩
      intro hz
      rw [hz]; rfl
  | some w =>
    rw [hk] at hres
    simp only [Prod.mk.injEq] at hres
    obtain ⟨hv, he⟩ := hres
    subst hv he
    refine ⟨_, rfl, ?_, ?_, ?_⟩
    · simp
    · intro v hv
      simp only [if_true] at hv ⊢
      rw [hk] at hv
      cases hv
      refine ⟨rfl, by simp [mapSet], ?_⟩
      intro c hc
      simp only [mapSet, hc, if_false, hrep, hrep0]
    · intro hn
      simp [hk] at hn

/-- C5, witness: on a fresh replica over the engine that decides at once, with
a first `Get(a)`: sequencing succeeds, the key is absent after catch-up and the
reply is `ErrNoKey` with the empty value. -/
theorem get_unseen_reply_witness :
    (KVPaxos.init 0).log 12 = false ∧
    ∃ res, Get (instantEngine false) 1 (KVPaxos.init 0) InstantState.init ⟨"a", 12, 7⟩
        GetReply.zero = some res ∧
      res.2.1.db =
        (updateDbAndGetValue (instantEngine false)
          { KVPaxos.init 0 with log := setAdd (KVPaxos.init 0).log 12 }
          ((instantEngine false).Start InstantState.init 0 ⟨"a", "", 12, 0, "Get"⟩)
          "a").2.1.db ∧
      (∀ v, res.2.1.db "a" = some v →
        res.1 = ⟨v, Err.OK⟩ ∧ res.2.1.replied 7 = some v ∧
        ∀ c, c ≠ 7 → res.2.1.replied c = (KVPaxos.init 0).replied c) ∧
      (res.2.1.db "a" = none →
        res.1.Err = Err.ErrNoKey ∧ res.1.Value = GetReply.zero.Value ∧
        (GetReply.zero = GetReply.zero → res.1 = ⟨"", Err.ErrNoKey⟩) ∧
        res.2.1.replied = (KVPaxos.init 0).replied) :=
  ⟨rfl, get_unseen_reply (instantEngine false) 1 (KVPaxos.init 0) InstantState.init
    ⟨"a", 12, 7⟩ GetReply.zero
    ((instantEngine false).Start InstantState.init 0 ⟨"a", "", 12, 0, "Get"⟩) rfl
    (makeAgreement_of_decided (instantEngine false) 0 0 ⟨"a", "", 12, 0, "Get"⟩
      InstantState.init (by decide) (by decide))⟩

end

/-- C6, the code at the failing input: a `Get` with command-id 7 and client-id
3 reaches a fresh replica whose engine never decides; it is answered
`Timeout` and its command-id stays in the Seen set.  The second delivery of the
same request finds the command-id in the Seen set and no Result cache entry for
client 3: the handler returns the reply record untouched, so the status is not
`OK` but unset.  The same happens when the Store holds `a = 1`: the reply does
not carry that value. -/
theorem get_seen_uncached_reply_unset :
    Get deadEngine 1 (KVPaxos.init 0) () ⟨"a", 7, 3⟩ GetReply.zero =
      some (⟨"", Err.Timeout⟩,
        { KVPaxos.init 0 with log := setAdd (KVPaxos.init 0).log 7 }, ()) ∧
    (Get deadEngine 1 { KVPaxos.init 0 with log := setAdd (KVPaxos.init 0).log 7 } ()
      ⟨"a", 7, 3⟩ GetReply.zero).map (fun r => r.1) = some ⟨"", Err.unset⟩ ∧
    (Get deadEngine 1
      { KVPaxos.init 0 with
        log := setAdd (KVPaxos.init 0).log 7
        db := mapSet (KVPaxos.init 0).db "a" "1" } ()
      ⟨"a", 7, 3⟩ GetReply.zero).map (fun r => r.1) = some ⟨"", Err.unset⟩ := by
  refine ⟨?_, ?_, ?_⟩
  · exact Get_of_not_agreed deadEngine 1 (KVPaxos.init 0) () ⟨"a", 7, 3⟩ GetReply.zero ()
      rfl (deadEngine_makeAgreement _ _ (by decide))
  · rw [Get_of_seen _ _ _ _ _ _ (by decide)]
    rfl
  · rw [Get_of_seen _ _ _ _ _ _ (by decide)]
    rfl

/-! ### The catch-up pass over decided slots -/

section

variable {E : Type}

theorem scanAnswers_length (px : Engine E) :
    ∀ (n : Nat) (seq : Int) (e : E), (scanAnswers px n seq e).length = n := by
  intro n
  induction n with
  | zero => intro seq e; rfl
  | succ n ih => intro seq e; simp [scanAnswers, ih]

theorem scanAnswers_traced (px : Engine E) :
    ∀ (n : Nat) (seq : Int) (e : E) (t : List Event),
      scanAnswers (traced px) n seq (e, t) = scanAnswers px n seq e := by
  intro n
  induction n with
  | zero => intro seq e t; rfl
  | succ n ih =>
    intro seq e t
    simp only [scanAnswers]
    rw [show ((traced px).Status (e, t) seq).1 = (px.Status e seq).1 from rfl]
    rw [show ((traced px).Status (e, t) seq).2 = ((px.Status e seq).2,
      t ++ [Event.Status seq (px.Status e seq).1.1 (px.Status e seq).1.2]) from rfl]
    rw [ih]

theorem scanEnd_traced (px : Engine E) :
    ∀ (n : Nat) (seq : Int) (e : E) (t : List Event),
      scanEnd (traced px) n seq (e, t) =
        (scanEnd px n seq e, t ++ statusEvents seq (scanAnswers px n seq e)) := by
  intro n
  induction n with
  | zero => intro seq e t; simp [scanEnd, scanAnswers, statusEvents]
  | succ n ih =>
    intro seq e t
    simp only [scanEnd, scanAnswers, statusEvents]
    rw [show ((traced px).Status (e, t) seq).2 = ((px.Status e seq).2,
      t ++ [Event.Status seq (px.Status e seq).1.1 (px.Status e seq).1.2]) from rfl]
    rw [ih]
    simp

theorem statusEvents_mem (answers : List (Fate × Op)) :
    ∀ (seq : Int) (ev : Event), ev ∈ statusEvents seq answers →
      ∃ s f v, ev = Event.Status s f v ∧ seq ≤ s ∧ s < seq + answers.length ∧
        (f, v) ∈ answers := by
  induction answers with
  | nil => intro seq ev h; simp [statusEvents] at h
  | cons a rest ih =>
    intro seq ev h
    simp only [statusEvents, List.mem_cons] at h
    rcases h with h | h
    · exact ⟨seq, a.1, a.2, h, le_refl _, by simp, by simp⟩
    · obtain ⟨s, f, v, h1, h2, h3, h4⟩ := ih (seq + 1) ev h
      refine ⟨s, f, v, h1, by omega, ?_, by simp [h4]⟩
      simp only [List.length_cons, Nat.cast_add, Nat.cast_one]
      omega

/-- When every slot polled answers `Decided` or `Forgotten`, the catch-up loop
makes exactly these polls and applies the decided commands in order. -/
theorem updateLoop_of_decided (px : Engine E) :
    ∀ (n : Nat) (seq : Int) (kv : KVPaxos) (e : E),
      (∀ a ∈ scanAnswers px n seq e, a.1 = Fate.Decided ∨ a.1 = Fate.Forgotten) →
      updateLoop px n seq kv e =
        (applyAll kv (decidedOps (scanAnswers px n seq e)), scanEnd px n seq e) := by
  intro n
  induction n with
  | zero => intro seq kv e _; rfl
  | succ n ih =>
    intro seq kv e h
    have hhead := h (px.Status e seq).1 (by simp [scanAnswers])
    have htail : ∀ a ∈ scanAnswers px n (seq + 1) (px.Status e seq).2,
        a.1 = Fate.Decided ∨ a.1 = Fate.Forgotten := by
      intro a ha
      exact h a (by simp [scanAnswers, ha])
    unfold updateLoop
    simp only [scanAnswers, scanEnd]
    by_cases hd : (px.Status e seq).1.1 = Fate.Decided
    · simp only [hd, if_true]
      rw [ih _ _ _ htail]
      simp [decidedOps, applyAll, hd]
    · have hf : (px.Status e seq).1.1 = Fate.Forgotten := by
        rcases hhead with h1 | h1
        · exact absurd h1 hd
        · exact h1
      simp only [hf, reduceCtorEq, if_false, ne_eq, not_true_eq_false]
      rw [ih _ _ _ htail]
      simp [decidedOps, applyAll, hf]

end

/-- C7: catch-up applies the decided log prefix in ascending order.  Let `p` be
the frontier, `m` the engine maximum read by the pass and `answers` what the
engine answers when the slots `p, p+1, ..., m-1` are polled in that order.  If
every answer is `Decided` or `Forgotten`, the pass leaves Store and Applied set
equal to the result of applying, with `apply`, the commands of the `Decided`
answers in order; it sets the frontier to `m`; the calls it makes to the engine
are `Max`, one `Status` per slot of `p, ..., m-1` in ascending order, and
`Done(m)`: it proposes nothing and reads no slot at or above `m`.  The engine
with the record of calls and the engine without it leave the same replica
state. -/
theorem catchup_applies_decided {E : Type} (px : Engine E) (kv : KVPaxos) (e : E)
    (t : List Event) (key : String)
    (hdec : ∀ a ∈ scanAnswers px ((px.Max e).1 - kv.processed).toNat kv.processed (px.Max e).2,
      a.1 = Fate.Decided ∨ a.1 = Fate.Forgotten) :
    ∃ answers, answers = scanAnswers px ((px.Max e).1 - kv.processed).toNat kv.processed
        (px.Max e).2 ∧
      (updateDbAndGetValue (traced px) kv (e, t) key).2.1.db =
        (applyAll kv (decidedOps answers)).db ∧
      (updateDbAndGetValue (traced px) kv (e, t) key).2.1.applied =
        (applyAll kv (decidedOps answers)).applied ∧
      (updateDbAndGetValue (traced px) kv (e, t) key).2.1.processed = (px.Max e).1 ∧
      (updateDbAndGetValue (traced px) kv (e, t) key).2.2.2 =
        t ++ Event.Max (px.Max e).1 :: statusEvents kv.processed answers
          ++ [Event.Done (px.Max e).1] ∧
      (∀ ev ∈ statusEvents kv.processed answers, ∃ s f v, ev = Event.Status s f v ∧
        kv.processed ≤ s ∧ s < (px.Max e).1 ∧ (f, v) ∈ answers) ∧
      (∀ s v, Event.Start s v ∉ Event.Max (px.Max e).1 :: statusEvents kv.processed answers
          ++ [Event.Done (px.Max e).1]) ∧
      (updateDbAndGetValue px kv e key).2.1 =
        (updateDbAndGetValue (traced px) kv (e, t) key).2.1 ∧
      (updateDbAndGetValue px kv e key).1 =
        (updateDbAndGetValue (traced px) kv (e, t) key).1 := by
  refine ⟨_, rfl, ?_⟩
  have hM1 : ((traced px).Max (e, t)).1 = (px.Max e).1 := rfl
  have hM2 : ((traced px).Max (e, t)).2 = ((px.Max e).2, t ++ [Event.Max (px.Max e).1]) := rfl
  have hdec' : ∀ a ∈ scanAnswers (traced px) (((traced px).Max (e, t)).1 - kv.processed).toNat
      kv.processed ((traced px).Max (e, t)).2, a.1 = Fate.Decided ∨ a.1 = Fate.Forgotten := by
    rw [hM1, hM2, scanAnswers_traced]; exact hdec
  have hloopT := updateLoop_of_decided (traced px) _ _ kv _ hdec'
  have hloop := updateLoop_of_decided px _ _ kv _ hdec
  obtain ⟨a1, a2, a3⟩ := updateDbAndGetValue_eq (traced px) kv (e, t) key _ hloopT
  obtain ⟨b1, _, b3⟩ := updateDbAndGetValue_eq px kv e key _ hloop
  rw [hM1, hM2, scanAnswers_traced] at a1 a3
  rw [hM1, hM2, scanAnswers_traced, scanEnd_traced] at a2
  have hmem := statusEvents_mem (scanAnswers px ((px.Max e).1 - kv.processed).toNat
    kv.processed (px.Max e).2) kv.processed
  have hlen := scanAnswers_length px ((px.Max e).1 - kv.processed).toNat kv.processed
    (px.Max e).2
  refine ⟨?_, ?_, ?_, ?_, ?_, ?_, ?_, ?_⟩
  · rw [a1]
  · rw [a1]
  · rw [a1]
  · rw [a2]
    simp [traced]
  · intro ev hev
    obtain ⟨s, f, v, h1, h2, h3, h4⟩ := hmem ev hev
    refine ⟨s, f, v, h1, h2, ?_, h4⟩
    rw [hlen] at h3
    omega
  · intro s v hmemS
    simp only [List.cons_append, List.mem_cons, reduceCtorEq, List.mem_append,
      List.mem_singleton, false_or, or_false, List.not_mem_nil] at hmemS
    obtain ⟨s1, f1, v1, h1, _⟩ := hmem _ hmemS
    cases h1
  · rw [a1, b1]
  · rw [a3, b3]

/-- C7, witness: a fresh replica over an engine in which slot 0 holds `Put(a,1)`
and slot 1 holds `Put(b,2)`: the engine maximum is 1, the pass polls slot 0
only. -/
theorem catchup_applies_decided_witness :
    (∀ a ∈ scanAnswers (instantEngine false)
        ((((instantEngine false).Max
          ((instantEngine false).Start ((instantEngine false).Start InstantState.init 0
            ⟨"a", "1", 11, 1, "Put"⟩) 1 ⟨"b", "2", 12, 1, "Put"⟩)).1
          - (KVPaxos.init 0).processed).toNat)
        (KVPaxos.init 0).processed
        ((instantEngine false).Max
          ((instantEngine false).Start ((instantEngine false).Start InstantState.init 0
            ⟨"a", "1", 11, 1, "Put"⟩) 1 ⟨"b", "2", 12, 1, "Put"⟩)).2,
      a.1 = Fate.Decided ∨ a.1 = Fate.Forgotten) ∧
    ∃ answers, answers = [(Fate.Decided, (⟨"a", "1", 11, 1, "Put"⟩ : Op))] ∧
      (updateDbAndGetValue (traced (instantEngine false)) (KVPaxos.init 0)
        ((instantEngine false).Start ((instantEngine false).Start InstantState.init 0
            ⟨"a", "1", 11, 1, "Put"⟩) 1 ⟨"b", "2", 12, 1, "Put"⟩, []) "a").2.1.db =
        (applyAll (KVPaxos.init 0) (decidedOps answers)).db := by
  have hdec : ∀ a ∈ scanAnswers (instantEngine false)
        ((((instantEngine false).Max
          ((instantEngine false).Start ((instantEngine false).Start InstantState.init 0
            ⟨"a", "1", 11, 1, "Put"⟩) 1 ⟨"b", "2", 12, 1, "Put"⟩)).1
          - (KVPaxos.init 0).processed).toNat)
        (KVPaxos.init 0).processed
        ((instantEngine false).Max
          ((instantEngine false).Start ((instantEngine false).Start InstantState.init 0
            ⟨"a", "1", 11, 1, "Put"⟩) 1 ⟨"b", "2", 12, 1, "Put"⟩)).2,
      a.1 = Fate.Decided ∨ a.1 = Fate.Forgotten := by
    decide
  obtain ⟨answers, h1, h2, _⟩ := catchup_applies_decided (instantEngine false)
    (KVPaxos.init 0)
    ((instantEngine false).Start ((instantEngine false).Start InstantState.init 0
      ⟨"a", "1", 11, 1, "Put"⟩) 1 ⟨"b", "2", 12, 1, "Put"⟩) [] "a" hdec
  exact ⟨hdec, answers, h1.trans (by decide), h2⟩

/-! ### Slots learned through a no-op proposal -/

theorem lateEngine_learn (c : Op) :
    learn (lateEngine c) 0 false = ((Fate.Decided, c), true) := by
  unfold learn
  simp only
  rw [checkStatus_of_decided (lateEngine c) 0 ((lateEngine c).Start false 0 Op.zero) rfl]
  rfl

theorem lateEngine_loop_pending (c : Op) (hc : c.Value = "") (kv : KVPaxos) :
    updateLoop (lateEngine c) 1 0 kv false = (kv, true) := by
  unfold updateLoop
  have hs : (lateEngine c).Status false 0 = ((Fate.Pending, Op.zero), false) := rfl
  simp only [hs, reduceCtorEq, if_false, ne_eq, not_false_eq_true, if_true,
    lateEngine_learn, hc, not_true_eq_false]
  rfl

/-- C8, the code at the failing input: slot 0 is `Pending` when the catch-up
pass of a fresh replica scans it and, once the replica has proposed the no-op
there, is `Decided` with a peer's `Put(a, "")` of command-id 5.  The pass
drops the command: `a` stays absent from the Store (the pass reports
`ErrNoKey`) and 5 does not enter the Applied set, whereas `apply` on that
command sets `Store[a]` to the empty string and records 5.  When the same slot
is already `Decided` at the scan, the pass does apply the command. -/
theorem learned_empty_put_dropped :
    (updateDbAndGetValue (lateEngine ⟨"a", "", 5, 1, "Put"⟩) (KVPaxos.init 0) false "a").1
      = ("", Err.ErrNoKey) ∧
    (updateDbAndGetValue (lateEngine ⟨"a", "", 5, 1, "Put"⟩) (KVPaxos.init 0) false "a").2.1.db
      "a" = none ∧
    (updateDbAndGetValue (lateEngine ⟨"a", "", 5, 1, "Put"⟩) (KVPaxos.init 0) false
      "a").2.1.applied 5 = false ∧
    (updateDbAndGetValue (lateEngine ⟨"a", "", 5, 1, "Put"⟩) (KVPaxos.init 0) false
      "a").2.1.processed = 1 ∧
    (apply (KVPaxos.init 0) ⟨"a", "", 5, 1, "Put"⟩).db "a" = some "" ∧
    (apply (KVPaxos.init 0) ⟨"a", "", 5, 1, "Put"⟩).applied 5 = true ∧
    (updateDbAndGetValue (lateEngine ⟨"a", "", 5, 1, "Put"⟩) (KVPaxos.init 0) true "a").1
      = ("", Err.OK) := by
  obtain ⟨h1, _, h3⟩ := updateDbAndGetValue_eq (lateEngine ⟨"a", "", 5, 1, "Put"⟩)
    (KVPaxos.init 0) false "a" _
    (lateEngine_loop_pending ⟨"a", "", 5, 1, "Put"⟩ rfl (KVPaxos.init 0))
  refine ⟨?_, ?_, ?_, ?_, ?_, ?_, ?_⟩
  · rw [h3]; rfl
  · rw [h1]; rfl
  · rw [h1]; rfl
  · rw [h1]; rfl
  · decide
  · decide
  · decide

/-! ### The garbage-collection signal -/

/-- C9, the code at the failing input: peers have had `Put(a,1)` decided at slot
0 and `Put(b,2)` at slot 1, so the engine maximum is 1.  The catch-up pass of a
fresh replica polls slot 0 only, sets the frontier to 1 and calls `Done(1)`:
slot 1 is released although it is not below the frontier and has not been
scanned.  After a peer's `Put(c,3)` at slot 2, the next pass polls slot 1,
which is at or below the argument of the earlier `Done`; the engine has
forgotten it, and `Put(b,2)` never reaches the Store. -/
theorem done_releases_unscanned_slot :
    peerLogPass1.2.2.2 =
      [Event.Max 1, Event.Status 0 Fate.Decided ⟨"a", "1", 11, 1, "Put"⟩, Event.Done 1] ∧
    peerLogPass1.2.1.processed = 1 ∧
    ¬ ((1 : Int) < peerLogPass1.2.1.processed) ∧
    peerLogPass2.2.2.2 =
      [Event.Max 1, Event.Status 0 Fate.Decided ⟨"a", "1", 11, 1, "Put"⟩, Event.Done 1,
        Event.Start 2 ⟨"c", "3", 13, 1, "Put"⟩,
        Event.Max 2, Event.Status 1 Fate.Forgotten Op.zero, Event.Done 2] ∧
    peerLogPass2.2.1.db "b" = none ∧
    peerLogPass2.1 = ("", Err.ErrNoKey) := by
  decide

/-! ### The Applied frontier -/

section

variable {E : Type}

theorem checkStatusLoop_known (px : Engine E) (known : E → Int) (hc : MaxContract px known)
    (seq : Int) :
    ∀ (n : Nat) (to_ : Nat) (hto : 0 < to_) (e : E), 10 * Second - to_ = n →
      known e ≤ known (checkStatusLoop px seq to_ hto e).2 := by
  intro n
  induction n using Nat.strong_induction_on with
  | _ n ih =>
    intro to_ hto e hn
    rw [checkStatusLoop]
    by_cases hd : (px.Status e seq).1.1 = Fate.Decided
    · simp only [hd, if_true]
      exact hc.status_mono e seq
    · simp only [hd, if_false]
      have h1 := hc.status_mono e seq
      have h2 := hc.sleep_mono (px.Status e seq).2 to_
      by_cases hlt : to_ < 10 * Second
      · simp only [hlt, dite_true]
        have := ih (10 * Second - to_ * 2) (by omega) (to_ * 2) (by omega)
          (px.Sleep (px.Status e seq).2 to_) rfl
        omega
      · simp only [hlt, dite_false]
        omega

theorem checkStatus_known (px : Engine E) (known : E → Int) (hc : MaxContract px known)
    (seq : Int) (e : E) : known e ≤ known (checkStatus px seq e).2 :=
  checkStatusLoop_known px known hc seq _ _ _ e rfl

theorem makeAgreementLoop_known (px : Engine E) (known : E → Int) (hc : MaxContract px known)
    (op : Op) :
    ∀ (fuel : Nat) (seq : Int) (status : Fate) (v : Op) (e : E) (ok : Bool) (e1 : E),
      makeAgreementLoop px op fuel seq status v e = some (ok, e1) → known e ≤ known e1 := by
  intro fuel
  induction fuel with
  | zero => intro seq status v e ok e1 h; simp [makeAgreementLoop] at h
  | succ fuel ih =>
    intro seq status v e ok e1 h
    unfold makeAgreementLoop at h
    split_ifs at h with h1 h2
    · simp only [Option.some.injEq, Prod.mk.injEq] at h
      rw [← h.2]
    · have h3 := ih _ _ _ _ _ _ h
      have h4 := checkStatus_known px known hc (seq + 1) (px.Start e (seq + 1) op)
      have h5 := hc.start_mono e (seq + 1) op
      omega
    · simp only [Option.some.injEq, Prod.mk.injEq] at h
      rw [← h.2]

theorem makeAgreement_known (px : Engine E) (known : E → Int) (hc : MaxContract px known)
    (fuel : Nat) (seq : Int) (op : Op) (e : E) (ok : Bool) (e1 : E)
    (h : makeAgreement px fuel seq op e = some (ok, e1)) :
    seq ≤ known e1 ∧ known e ≤ known e1 := by
  unfold makeAgreement at h
  have h1 := makeAgreementLoop_known px known hc op _ _ _ _ _ _ _ h
  have h2 := checkStatus_known px known hc seq (px.Start e seq op)
  have h3 := hc.start_mono e seq op
  have h4 := hc.start_ge e seq op
  constructor <;> omega

theorem learn_known (px : Engine E) (known : E → Int) (hc : MaxContract px known)
    (seq : Int) (e : E) : known e ≤ known (learn px seq e).2 := by
  have h2 := checkStatus_known px known hc seq (px.Start e seq Op.zero)
  have h3 := hc.start_mono e seq Op.zero
  unfold learn
  simp only
  split_ifs <;> simp only <;> omega

theorem updateLoop_known (px : Engine E) (known : E → Int) (hc : MaxContract px known) :
    ∀ (n : Nat) (seq : Int) (kv : KVPaxos) (e : E),
      known e ≤ known (updateLoop px n seq kv e).2 := by
  intro n
  induction n with
  | zero => intro seq kv e; exact le_refl _
  | succ n ih =>
    intro seq kv e
    have h1 := hc.status_mono e seq
    have h2 := learn_known px known hc seq (px.Status e seq).2
    unfold updateLoop
    simp only
    split_ifs
    · have := ih (seq + 1) (apply kv (px.Status e seq).1.2) (px.Status e seq).2
      omega
    · have := ih (seq + 1) (apply kv (learn px seq (px.Status e seq).2).1.2)
        (learn px seq (px.Status e seq).2).2
      omega
    · have := ih (seq + 1) kv (learn px seq (px.Status e seq).2).2
      omega
    · have := ih (seq + 1) kv (px.Status e seq).2
      omega

theorem updateDbAndGetValue_known (px : Engine E) (known : E → Int)
    (hc : MaxContract px known) (kv : KVPaxos) (e : E) (key : String) :
    (px.Max e).1 ≤ known (updateDbAndGetValue px kv e key).2.2 := by
  obtain ⟨_, h2, _⟩ := updateDbAndGetValue_eq px kv e key _ rfl
  rw [h2]
  have h3 := hc.done_mono (updateLoop px ((px.Max e).1 - kv.processed).toNat
    kv.processed kv (px.Max e).2).2 (px.Max e).1
  have h4 := updateLoop_known px known hc ((px.Max e).1 - kv.processed).toNat
    kv.processed kv (px.Max e).2
  have h5 := hc.max_known e
  omega

/-- One call keeps the frontier between 0 and one more than the highest slot
known to the engine, and does not make it decrease. -/
theorem call_frontier (px : Engine E) (known : E → Int) (hc : MaxContract px known)
    (fuel : Nat) (kv : KVPaxos) (e : E) (c : Call) (kv1 : KVPaxos) (e1 : E)
    (hrun : call px fuel kv e c = some (kv1, e1))
    (hk : kv.processed ≤ known e + 1) :
    kv.processed ≤ kv1.processed ∧ kv1.processed ≤ known e1 + 1 := by
  cases c with
  | PutAppend args =>
    simp only [call] at hrun
    by_cases hlog : kv.log args.JID = true
    · rw [PutAppend_of_seen _ _ _ _ _ _ hlog] at hrun
      simp only [Option.map_some', Option.some.injEq, Prod.mk.injEq] at hrun
      obtain ⟨rfl, rfl⟩ := hrun
      exact ⟨le_refl _, hk⟩
    · have hlog' : kv.log args.JID = false := by simpa using hlog
      rw [PutAppend_of_unseen _ _ _ _ _ _ hlog'] at hrun
      cases hm : makeAgreement px fuel ((px.Max e).1 + 1)
          ⟨args.Key, args.Value, args.JID, kv.me, args.Op⟩ (px.Max e).2 with
      | none => simp [hm] at hrun
      | some r =>
        obtain ⟨ok, e2⟩ := r
        simp only [hm, Option.map_some', Option.some.injEq, Prod.mk.injEq] at hrun
        obtain ⟨rfl, rfl⟩ := hrun
        obtain ⟨_, h2⟩ := makeAgreement_known px known hc _ _ _ _ _ _ hm
        have h3 := hc.max_ge e
        have h4 := hc.max_known e
        simp only
        constructor <;> omega
  | Get args =>
    simp only [call] at hrun
    by_cases hlog : kv.log args.JID = true
    · rw [Get_of_seen _ _ _ _ _ _ hlog] at hrun
      simp only [Option.map_some', Option.some.injEq, Prod.mk.injEq] at hrun
      obtain ⟨rfl, rfl⟩ := hrun
      exact ⟨le_refl _, hk⟩
    · have hlog' : kv.log args.JID = false := by simpa using hlog
      have h3 := hc.max_ge e
      have h4 := hc.max_known e
      cases hm : makeAgreement px fuel ((px.Max e).1 + 1)
          ⟨args.Key, "", args.JID, kv.me, "Get"⟩ (px.Max e).2 with
      | none =>
        unfold Get at hrun
        simp [hlog', hm] at hrun
      | some r =>
        obtain ⟨ok, e2⟩ := r
        obtain ⟨h1, h2⟩ := makeAgreement_known px known hc _ _ _ _ _ _ hm
        cases ok with
        | false =>
          rw [Get_of_not_agreed _ _ _ _ _ _ e2 hlog' hm] at hrun
          simp only [Option.map_some', Option.some.injEq, Prod.mk.injEq] at hrun
          obtain ⟨rfl, rfl⟩ := hrun
          simp only
          constructor <;> omega
        | true =>
          obtain ⟨kv0, hkv0⟩ : ∃ kv0 : KVPaxos,
            kv0 = { kv with log := setAdd kv.log args.JID } := ⟨_, rfl⟩
          rw [Get_of_agreed _ _ _ _ _ _ e2 kv0 hkv0 hlog' hm] at hrun
          obtain ⟨_, _, _, hp⟩ := updateDbAndGetValue_frame px kv0 e2 args.Key
          have hkn := updateDbAndGetValue_known px known hc kv0 e2 args.Key
          have h5 := hc.max_ge e2
          simp only [Option.map_some', Option.some.injEq] at hrun
          split_ifs at hrun
          · simp only [Prod.mk.injEq] at hrun
            obtain ⟨rfl, rfl⟩ := hrun
            simp only [hp]
            constructor <;> omega
          · simp only [Prod.mk.injEq] at hrun
            obtain ⟨rfl, rfl⟩ := hrun
            simp only [hp]
            constructor <;> omega

theorem frontiers_chain (px : Engine E) (known : E → Int) (hc : MaxContract px known) :
    ∀ (calls : List (Nat × Call)) (kv : KVPaxos) (e : E),
      kv.processed ≤ known e + 1 →
      List.Chain (fun a b => a ≤ b) kv.processed (frontiers px kv e calls) := by
  intro calls
  induction calls with
  | nil => intro kv e _; exact List.Chain.nil
  | cons c rest ih =>
    intro kv e hk
    unfold frontiers
    cases hrun : call px c.1 kv e c.2 with
    | none => exact List.Chain.nil
    | some s =>
      obtain ⟨kv1, e1⟩ := s
      obtain ⟨h1, h2⟩ := call_frontier px known hc c.1 kv e c.2 kv1 e1 hrun hk
      exact List.Chain.cons h1 (ih kv1 e1 h2)

/-- C10: the Applied frontier never decreases.  The engine keeps the contract
of `Max` (its answers never decrease over time and are at least every slot
passed to `Start`) and, as the engine interface says, answers `-1` or more when
the replica starts.  Then for every sequence of `Get` and `PutAppend` calls on
a replica started with frontier 0, the frontier after each call that returns is
at least the frontier before it, and no frontier is negative. -/
theorem frontier_never_decreases (px : Engine E) (known : E → Int)
    (hc : MaxContract px known) (me : Int) (e0 : E) (hinit : -1 ≤ known e0)
    (calls : List (Nat × Call)) :
    (KVPaxos.init me).processed = 0 ∧
    List.Chain (fun a b => a ≤ b) 0 (frontiers px (KVPaxos.init me) e0 calls) ∧
    ∀ p ∈ frontiers px (KVPaxos.init me) e0 calls, 0 ≤ p := by
  have hch := frontiers_chain px known hc calls (KVPaxos.init me) e0
    (by simp only [KVPaxos.init]; omega)
  have hch0 : List.Chain (fun a b : Int => a ≤ b) 0
      (frontiers px (KVPaxos.init me) e0 calls) := hch
  refine ⟨rfl, hch0, ?_⟩
  intro p hp
  exact List.Chain.rel hch0 hp

end

theorem instantEngine_maxContract (forget : Bool) :
    MaxContract (instantEngine forget) (fun e => e.max) where
  max_ge := fun e => le_refl _
  max_known := fun e => le_refl _
  start_mono := by
    intro e s v
    simp only [instantEngine]
    split_ifs <;> omega
  start_ge := by
    intro e s v
    simp only [instantEngine]
    split_ifs <;> omega
  status_mono := by
    intro e s
    simp only [instantEngine]
    split_ifs
    · exact le_refl _
    · split <;> exact le_refl _
  done_mono := fun e d => le_refl _
  sleep_mono := fun e d => le_refl _

/-- C10, witness: a fresh replica over the engine that decides at once, serving
`Put(a,1)` and then `Get(a)`: the frontier is 0 after the first call and 1
after the second. -/
theorem frontier_never_decreases_witness :
    MaxContract (instantEngine false) (fun e => e.max) ∧
    -1 ≤ InstantState.init.max ∧
    frontiers (instantEngine false) (KVPaxos.init 0) InstantState.init
      [(1, Call.PutAppend ⟨"a", "1", "Put", 11⟩), (1, Call.Get ⟨"a", 12, 7⟩)] = [0, 1] ∧
    ((KVPaxos.init 0).processed = 0 ∧
      List.Chain (fun a b => a ≤ b) 0
        (frontiers (instantEngine false) (KVPaxos.init 0) InstantState.init
          [(1, Call.PutAppend ⟨"a", "1", "Put", 11⟩), (1, Call.Get ⟨"a", 12, 7⟩)]) ∧
      ∀ p ∈ frontiers (instantEngine false) (KVPaxos.init 0) InstantState.init
          [(1, Call.PutAppend ⟨"a", "1", "Put", 11⟩), (1, Call.Get ⟨"a", 12, 7⟩)],
        0 ≤ p) := by
  refine ⟨instantEngine_maxContract false, by decide, ?_,
    frontier_never_decreases (instantEngine false) (fun e => e.max)
      (instantEngine_maxContract false) 0 InstantState.init (by decide) _⟩
  obtain ⟨kv1, e1, hrun1, inv1⟩ := putAppend_step false 0 (KVPaxos.init 0) InstantState.init
    [] [] (seqInv_init 0) 0 "a" "1" "Put" 11 (Request.Put "a" "1" 11) rfl rfl (by simp)
  obtain ⟨kv2, e2, hrun2, inv2⟩ := get_step false 0 kv1 e1 [] [Request.Put "a" "1" 11]
    inv1 0 "a" 12 7 (by decide) (by decide)
  have hp1 := inv1.processed_eq
  have hp2 := inv2.processed_eq
  simp only [List.length_nil, List.nil_append, List.length_singleton, Nat.cast_zero,
    Nat.cast_one] at hp1 hp2
  simp only [frontiers, call, hrun1, hrun2, Option.map_some', hp1, hp2]

/-! ### The client stub -/

/-- C11, the code at the failing input: the first reply `Clerk.Get` receives has
status `Timeout`, the second would be `("1", OK)`.  The clerk returns the empty
string on the `Timeout` and never sends the retry.  (A transport failure is
retried, and `ErrNoKey` does return the empty string.) -/
theorem clerk_get_returns_on_timeout :
    Clerk.Get [some ⟨"", Err.Timeout⟩, some ⟨"1", Err.OK⟩] = some "" ∧
    Clerk.Get [some ⟨"", Err.Timeout⟩] = some "" ∧
    Clerk.Get [none, some ⟨"1", Err.OK⟩] = some "1" ∧
    Clerk.Get [none, none, some ⟨"", Err.ErrNoKey⟩] = some "" := by
  decide

/-! ### The decision wait and its schedule -/

section

variable {E : Type}

theorem checkStatusLoop_eq_waitOn (px : Engine E) (seq : Int) :
    ∀ (rest : List Nat) (to_ : Nat) (hto : 0 < to_) (e : E), Doubling to_ rest →
      checkStatusLoop px seq to_ hto e = waitOn px seq to_ rest e := by
  intro rest
  induction rest with
  | nil =>
    intro to_ hto e hd
    simp only [Doubling] at hd
    rw [checkStatusLoop, waitOn]
    simp only [hd, dite_false]
  | cons d1 rest ih =>
    intro to_ hto e hd
    simp only [Doubling] at hd
    obtain ⟨h1, h2, h3⟩ := hd
    subst h2
    rw [checkStatusLoop, waitOn]
    simp only [h1, dite_true]
    split_ifs
    · rfl
    · exact ih (to_ * 2) (by omega) _ h3

theorem doubling_backoff :
    Doubling (10 * Millisecond) (backoffTailMs.map fun ms => ms * Millisecond) := by
  simp only [backoffTailMs, List.map, Doubling, Millisecond, Second]
  decide

/-- The decision wait is the wait over the schedule of ten milliseconds and its
ten doublings. -/
theorem checkStatus_eq_waitOn (px : Engine E) (seq : Int) (e : E) :
    checkStatus px seq e =
      waitOn px seq (10 * Millisecond) (backoffTailMs.map fun ms => ms * Millisecond) e :=
  checkStatusLoop_eq_waitOn px seq _ _ _ e doubling_backoff

end

section

variable {E : Type}

/-- Recording the calls does not change the outcome of the wait. -/
theorem waitOn_traced_result (px : Engine E) (seq : Int) :
    ∀ (rest : List Nat) (d : Nat) (e : E) (t : List Event),
      (waitOn (traced px) seq d rest (e, t)).1 = (waitOn px seq d rest e).1 ∧
      (waitOn (traced px) seq d rest (e, t)).2.1 = (waitOn px seq d rest e).2 := by
  intro rest
  induction rest with
  | nil =>
    intro d e t
    rw [waitOn, waitOn]
    have h1 : ((traced px).Status (e, t) seq).1 = (px.Status e seq).1 := rfl
    simp only [h1]
    split_ifs <;> exact ⟨rfl, rfl⟩
  | cons d1 rest ih =>
    intro d e t
    rw [waitOn, waitOn]
    have h1 : ((traced px).Status (e, t) seq).1 = (px.Status e seq).1 := rfl
    simp only [h1]
    split_ifs
    · exact ⟨rfl, rfl⟩
    · exact ih d1 (px.Sleep (px.Status e seq).2 d) _

/-- The calls made by the wait: a run of misses, each followed by the sleep of
the next interval of the schedule, ended either by a `Status` call that answers
`Decided`, whose answer is the result, or by the sleep of the last interval,
with the status of the last miss and the zero command as the result. -/
theorem waitOn_traced (px : Engine E) (seq : Int) :
    ∀ (rest : List Nat) (d : Nat) (e : E) (t : List Event),
      ∃ misses : List (Fate × Op), (∀ a ∈ misses, a.1 ≠ Fate.Decided) ∧
        ((∃ v, misses.length ≤ rest.length ∧
            (waitOn (traced px) seq d rest (e, t)).1 = (Fate.Decided, v) ∧
            (waitOn (traced px) seq d rest (e, t)).2.2 =
              t ++ missEvents seq misses (d :: rest) ++ [Event.Status seq Fate.Decided v]) ∨
         (misses.length = rest.length + 1 ∧
            (∃ a, misses.getLast? = some a ∧
              (waitOn (traced px) seq d rest (e, t)).1 = (a.1, Op.zero)) ∧
            (waitOn (traced px) seq d rest (e, t)).2.2 =
              t ++ missEvents seq misses (d :: rest))) := by
  intro rest
  induction rest with
  | nil =>
    intro d e t
    rw [waitOn]
    by_cases hd : (px.Status e seq).1.1 = Fate.Decided
    · refine ⟨[], by simp, Or.inl ⟨(px.Status e seq).1.2, le_refl _, ?_, ?_⟩⟩
      · have h1 : ((traced px).Status (e, t) seq).1.1 = Fate.Decided := hd
        simp only [h1, if_true]
        exact Prod.ext hd rfl
      · have h1 : ((traced px).Status (e, t) seq).1.1 = Fate.Decided := hd
        simp only [h1, if_true, missEvents, List.append_nil]
        simp only [traced, hd]
    · refine ⟨[(px.Status e seq).1], by simpa using hd, Or.inr ⟨rfl, ?_, ?_⟩⟩
      · have h1 : ¬ ((traced px).Status (e, t) seq).1.1 = Fate.Decided := hd
        simp only [h1, if_false]
        exact ⟨(px.Status e seq).1, rfl, rfl⟩
      · have h1 : ¬ ((traced px).Status (e, t) seq).1.1 = Fate.Decided := hd
        simp only [h1, if_false, missEvents]
        simp [traced]
  | cons d1 rest ih =>
    intro d e t
    rw [waitOn]
    by_cases hd : (px.Status e seq).1.1 = Fate.Decided
    · refine ⟨[], by simp, Or.inl ⟨(px.Status e seq).1.2, Nat.zero_le _, ?_, ?_⟩⟩
      · have h1 : ((traced px).Status (e, t) seq).1.1 = Fate.Decided := hd
        simp only [h1, if_true]
        exact Prod.ext hd rfl
      · have h1 : ((traced px).Status (e, t) seq).1.1 = Fate.Decided := hd
        simp only [h1, if_true, missEvents, List.append_nil]
        simp only [traced, hd]
    · have h1 : ¬ ((traced px).Status (e, t) seq).1.1 = Fate.Decided := hd
      simp only [h1, if_false]
      have hst : (traced px).Sleep ((traced px).Status (e, t) seq).2 d =
          (px.Sleep (px.Status e seq).2 d,
            t ++ [Event.Status seq (px.Status e seq).1.1 (px.Status e seq).1.2,
              Event.Sleep d]) := by
        simp [traced]
      rw [hst]
      obtain ⟨misses, hm, hcases⟩ := ih d1 (px.Sleep (px.Status e seq).2 d)
        (t ++ [Event.Status seq (px.Status e seq).1.1 (px.Status e seq).1.2, Event.Sleep d])
      refine ⟨(px.Status e seq).1 :: misses, ?_, ?_⟩
      · intro a ha
        rcases List.mem_cons.mp ha with rfl | ha
        · exact hd
        · exact hm a ha
      · rcases hcases with ⟨v, hl, hr, htr⟩ | ⟨hl, ⟨a, ha, hr⟩, htr⟩
        · refine Or.inl ⟨v, by simp; omega, hr, ?_⟩
          rw [htr]
          simp [missEvents]
        · refine Or.inr ⟨by simp [hl], ⟨a, ?_, hr⟩, ?_⟩
          · cases misses with
            | nil => simp at hl
            | cons b bs => simpa [List.getLast?_cons_cons] using ha
          · rw [htr]
            simp [missEvents]

theorem sleepsOf_append (a b : List Event) : sleepsOf (a ++ b) = sleepsOf a ++ sleepsOf b := by
  induction a with
  | nil => rfl
  | cons ev rest ih => cases ev <;> simp [sleepsOf, ih]

theorem pollsOf_append (a b : List Event) : pollsOf (a ++ b) = pollsOf a ++ pollsOf b := by
  induction a with
  | nil => rfl
  | cons ev rest ih => cases ev <;> simp [pollsOf, ih]

theorem sleepsOf_missEvents (seq : Int) :
    ∀ (misses : List (Fate × Op)) (ds : List Nat),
      sleepsOf (missEvents seq misses ds) = ds.take misses.length := by
  intro misses
  induction misses with
  | nil => intro ds; simp [missEvents, sleepsOf]
  | cons a rest ih =>
    intro ds
    cases ds with
    | nil => simp [missEvents, sleepsOf]
    | cons d ds => simp [missEvents, sleepsOf, ih]

theorem pollsOf_missEvents (seq : Int) :
    ∀ (misses : List (Fate × Op)) (ds : List Nat), misses.length ≤ ds.length →
      pollsOf (missEvents seq misses ds) = List.replicate misses.length seq := by
  intro misses
  induction misses with
  | nil => intro ds _; simp [missEvents, pollsOf]
  | cons a rest ih =>
    intro ds h
    cases ds with
    | nil => simp at h
    | cons d ds =>
      simp only [List.length_cons, Nat.add_le_add_iff_right] at h
      simp [missEvents, pollsOf, ih ds h, List.replicate_succ]

end

section

variable {E : Type}

theorem backoff_eq :
    backoff = 10 * Millisecond :: backoffTailMs.map fun ms => ms * Millisecond := rfl

/-- The calls made by `checkStatus`: a run of at most 10 misses ended by a
`Status` call that answers `Decided`, or a run of 11 misses, each miss followed
by the sleep of the next interval of the schedule. -/
theorem checkStatus_trace (px : Engine E) (seq : Int) (e : E) (t : List Event) :
    ∃ misses : List (Fate × Op), (∀ a ∈ misses, a.1 ≠ Fate.Decided) ∧
      (checkStatus px seq e).1 = (checkStatus (traced px) seq (e, t)).1 ∧
      (checkStatus px seq e).2 = (checkStatus (traced px) seq (e, t)).2.1 ∧
      ((∃ v, misses.length ≤ 10 ∧
          (checkStatus (traced px) seq (e, t)).1 = (Fate.Decided, v) ∧
          (checkStatus (traced px) seq (e, t)).2.2 =
            t ++ (missEvents seq misses backoff ++ [Event.Status seq Fate.Decided v])) ∨
       (misses.length = 11 ∧
          (∃ a, misses.getLast? = some a ∧
            (checkStatus (traced px) seq (e, t)).1 = (a.1, Op.zero)) ∧
          (checkStatus (traced px) seq (e, t)).2.2 = t ++ missEvents seq misses backoff)) := by
  have hres := waitOn_traced_result px seq (backoffTailMs.map fun ms => ms * Millisecond)
    (10 * Millisecond) e t
  obtain ⟨misses, hm, hcases⟩ := waitOn_traced px seq
    (backoffTailMs.map fun ms => ms * Millisecond) (10 * Millisecond) e t
  rw [← checkStatus_eq_waitOn, ← checkStatus_eq_waitOn] at hres
  rw [← checkStatus_eq_waitOn, ← backoff_eq] at hcases
  have htail : (backoffTailMs.map fun ms => ms * Millisecond).length = 10 := rfl
  rw [htail] at hcases
  refine ⟨misses, hm, hres.1.symm, hres.2.symm, ?_⟩
  rcases hcases with ⟨v, hl, hr, htr⟩ | ⟨hl, hlast, htr⟩
  · exact Or.inl ⟨v, hl, hr, by rw [htr, List.append_assoc]⟩
  · exact Or.inr ⟨hl, hlast, htr⟩

/-- A run of 11 misses sleeps every interval of the schedule and ends on the
sleep of 10240 milliseconds. -/
theorem missEvents_eleven (seq : Int) (misses : List (Fate × Op)) (hl : misses.length = 11) :
    sleepsOf (missEvents seq misses backoff) = backoff ∧
    (missEvents seq misses backoff).getLast? = some (Event.Sleep (10240 * Millisecond)) := by
  constructor
  · rw [sleepsOf_missEvents, hl]
    rfl
  · obtain ⟨a0, a1, a2, a3, a4, a5, a6, a7, a8, a9, a10, hmis⟩ :
        ∃ a0 a1 a2 a3 a4 a5 a6 a7 a8 a9 a10,
          misses = [a0, a1, a2, a3, a4, a5, a6, a7, a8, a9, a10] := by
      match misses, hl with
      | [a0, a1, a2, a3, a4, a5, a6, a7, a8, a9, a10], _ =>
        exact ⟨a0, a1, a2, a3, a4, a5, a6, a7, a8, a9, a10, rfl⟩
    subst hmis
    rfl

/-- C15: `checkStatus` is total and bounded.  For every engine and every
sequence of answers it gives for the slot, the calls made by `checkStatus` are
a run of misses (answers other than `Decided`), each followed by a sleep of the
next interval of the schedule, and all on the slot asked for; there are at most
11 polls.  Either the run is ended by a poll that answers `Decided`, the first
to do so, and the result is that answer with the command of the engine; or
there are 11 misses, and the result, returned after the 11th sleep, is the
status of the 11th poll with the zero command, the sleeps adding up to 20470
milliseconds.  The result does not depend on the calls being recorded. -/
theorem checkStatus_total_bounded (px : Engine E) (seq : Int) (e : E) (t : List Event) :
    ∃ (evs : List Event) (misses : List (Fate × Op)),
      (checkStatus (traced px) seq (e, t)).2.2 = t ++ evs ∧
      (checkStatus px seq e).1 = (checkStatus (traced px) seq (e, t)).1 ∧
      (checkStatus px seq e).2 = (checkStatus (traced px) seq (e, t)).2.1 ∧
      (∀ a ∈ misses, a.1 ≠ Fate.Decided) ∧
      (pollsOf evs).length ≤ 11 ∧ (∀ s ∈ pollsOf evs, s = seq) ∧
      ((∃ v, misses.length ≤ 10 ∧
          evs = missEvents seq misses backoff ++ [Event.Status seq Fate.Decided v] ∧
          (checkStatus (traced px) seq (e, t)).1 = (Fate.Decided, v)) ∨
       (misses.length = 11 ∧ evs = missEvents seq misses backoff ∧
          (pollsOf evs).length = 11 ∧
          (∃ a, misses.getLast? = some a ∧
            (checkStatus (traced px) seq (e, t)).1 = (a.1, Op.zero)) ∧
          evs.getLast? = some (Event.Sleep (10240 * Millisecond)) ∧
          sleepsOf evs = backoff ∧
          (sleepsOf evs).sum = 20470 * Millisecond)) := by
  obtain ⟨misses, hm, hr1, hr2, hcases⟩ := checkStatus_trace px seq e t
  have hblen : backoff.length = 11 := rfl
  rcases hcases with ⟨v, hl, hr, htr⟩ | ⟨hl, hlast, htr⟩
  · have hp : pollsOf (missEvents seq misses backoff ++ [Event.Status seq Fate.Decided v]) =
        List.replicate misses.length seq ++ [seq] := by
      rw [pollsOf_append, pollsOf_missEvents seq misses backoff (by rw [hblen]; omega)]
      rfl
    refine ⟨missEvents seq misses backoff ++ [Event.Status seq Fate.Decided v], misses,
      htr, hr1, hr2, hm, ?_, ?_, Or.inl ⟨v, hl, rfl, hr⟩⟩
    · rw [hp]; simp; omega
    · intro s hs
      rw [hp] at hs
      simp only [List.mem_append, List.mem_replicate, List.mem_singleton] at hs
      rcases hs with ⟨_, h⟩ | h <;> exact h
  · have hp : pollsOf (missEvents seq misses backoff) = List.replicate misses.length seq :=
      pollsOf_missEvents seq misses backoff (by rw [hblen]; omega)
    obtain ⟨hsl, hlastEv⟩ := missEvents_eleven seq misses hl
    refine ⟨missEvents seq misses backoff, misses, htr, hr1, hr2, hm, ?_, ?_,
      Or.inr ⟨hl, rfl, ?_, hlast, hlastEv, hsl, ?_⟩⟩
    · rw [hp]; simp; omega
    · intro s hs
      rw [hp] at hs
      exact (List.mem_replicate.mp hs).2
    · rw [hp]; simp [hl]
    · rw [hsl]
      decide

end

/-- C12, counterexample: over an engine that never decides, the sleep intervals
of `checkStatus` are those of the schedule; the last is 10240 milliseconds,
which exceeds ten seconds. -/
theorem checkStatus_sleep_exceeds_cap :
    sleepsOf (checkStatus (traced deadEngine) 0 ((), [])).2.2 = backoff ∧
    10240 * Millisecond ∈ sleepsOf (checkStatus (traced deadEngine) 0 ((), [])).2.2 ∧
    ¬ (∀ d ∈ sleepsOf (checkStatus (traced deadEngine) 0 ((), [])).2.2, d ≤ 10 * Second) := by
  rw [checkStatus_eq_waitOn]
  decide

/-- C12, amended: when the polled slot never reports `Decided`, `checkStatus`
sleeps 11 times: 10 milliseconds after the first miss and twice the previous
interval after each later miss (the `k`-th interval, counted from 0, is 10
milliseconds times `2 ^ k`).  Every interval but the last is below ten
seconds; the last, 10240 milliseconds, is the only one of ten seconds or more,
and the wait is abandoned right after it. -/
theorem checkStatus_backoff_schedule {E : Type} (px : Engine E) (seq : Int) (e : E)
    (t : List Event) (hnever : ∀ e0, (px.Status e0 seq).1.1 ≠ Fate.Decided) :
    ∃ evs, (checkStatus (traced px) seq (e, t)).2.2 = t ++ evs ∧
      sleepsOf evs = backoff ∧
      evs.getLast? = some (Event.Sleep (10240 * Millisecond)) ∧
      backoff.head? = some (10 * Millisecond) ∧
      backoff = (List.range 11).map (fun k => 10 * Millisecond * 2 ^ k) ∧
      backoff.length = 11 ∧
      (∀ d ∈ backoff.dropLast, d < 10 * Second) ∧
      backoff.getLast? = some (10240 * Millisecond) ∧
      10 * Second < 10240 * Millisecond ∧
      (backoff.filter fun d => 10 * Second ≤ d) = [10240 * Millisecond] := by
  obtain ⟨misses, _, hr1, _, hcases⟩ := checkStatus_trace px seq e t
  have hnd := (checkStatus_of_never_decided px seq e hnever).1
  rcases hcases with ⟨v, _, hr, _⟩ | ⟨hl, _, htr⟩
  · rw [hr1, hr] at hnd
    exact absurd rfl hnd
  · obtain ⟨hsl, hlast⟩ := missEvents_eleven seq misses hl
    exact ⟨missEvents seq misses backoff, htr, hsl, hlast, by decide, by decide, by decide,
      by decide, by decide, by decide, by decide⟩

/-- C12, witness: the engine that never decides. -/
theorem checkStatus_backoff_schedule_witness :
    (∀ e0, (deadEngine.Status e0 3).1.1 ≠ Fate.Decided) ∧
    ∃ evs, (checkStatus (traced deadEngine) 3 ((), [])).2.2 = [] ++ evs ∧
      sleepsOf evs = backoff ∧
      evs.getLast? = some (Event.Sleep (10240 * Millisecond)) ∧
      backoff.head? = some (10 * Millisecond) ∧
      backoff = (List.range 11).map (fun k => 10 * Millisecond * 2 ^ k) ∧
      backoff.length = 11 ∧
      (∀ d ∈ backoff.dropLast, d < 10 * Second) ∧
      backoff.getLast? = some (10240 * Millisecond) ∧
      10 * Second < 10240 * Millisecond ∧
      (backoff.filter fun d => 10 * Second ≤ d) = [10240 * Millisecond] :=
  ⟨by intro e0; simp [deadEngine],
   checkStatus_backoff_schedule deadEngine 3 () [] (by intro e0; simp [deadEngine])⟩

/-! ### The log sequencer -/

theorem deadEngine_checkStatus (seq : Int) (e : Unit) :
    checkStatus deadEngine seq e = ((Fate.Pending, Op.zero), ()) := by
  rw [checkStatus_eq_waitOn]
  rfl

theorem deadEngine_makeAgreement_zero (seq : Int) (op : Op) (hj : op.JID = 0) :
    makeAgreement deadEngine 1 seq op () = some (true, ()) := by
  unfold makeAgreement
  simp only
  rw [deadEngine_checkStatus]
  have h0 : Op.zero.JID = op.JID := hj.symm
  simp only [makeAgreementLoop, ne_eq, h0, not_true_eq_false, if_false]

/-- C13, the code at the failing input: a command with command-id 0 over an
engine that never decides.  The decision wait on the first slot ends without
`Decided` and returns the zero command, whose command-id is 0 as well, so the
loop of `makeAgreement` is not entered and `makeAgreement` returns true;
`PutAppend` answers `OK` although nothing was decided.  With command-id 7 the
same run returns false. -/
theorem makeAgreement_zero_id_reports_success :
    (checkStatus deadEngine 0 (deadEngine.Start () 0 ⟨"a", "1", 0, 0, "Put"⟩)).1 =
      (Fate.Pending, Op.zero) ∧
    makeAgreement deadEngine 1 0 ⟨"a", "1", 0, 0, "Put"⟩ () = some (true, ()) ∧
    (PutAppend deadEngine 1 (KVPaxos.init 0) () ⟨"a", "1", "Put", 0⟩
      PutAppendReply.zero).map (fun r => r.1) = some ⟨Err.OK⟩ ∧
    (∀ (e : Unit) (s : Int), (deadEngine.Status e s).1.1 ≠ Fate.Decided) ∧
    makeAgreement deadEngine 1 0 ⟨"a", "1", 7, 0, "Put"⟩ () = some (false, ()) := by
  refine ⟨?_, ?_, ?_, ?_, ?_⟩
  · rw [deadEngine_checkStatus]
  · exact deadEngine_makeAgreement_zero 0 _ rfl
  · rw [PutAppend_of_unseen _ _ _ _ _ _ rfl]
    have hm : (deadEngine.Max ()) = (-1, ()) := rfl
    rw [hm, deadEngine_makeAgreement_zero _ _ rfl]
    rfl
  · intro e s
    simp [deadEngine]
  · exact deadEngine_makeAgreement 0 _ (by decide)

/-! ### The frontier and unresolved slots -/

theorem slowEngine_learn : learn slowEngine 0 0 = ((Fate.Pending, Op.zero), 11) := by
  unfold learn
  simp only
  rw [checkStatus_eq_waitOn]
  rfl

theorem slowEngine_loop (kv : KVPaxos) : updateLoop slowEngine 1 0 kv 0 = (kv, 11) := by
  unfold updateLoop
  have hs : slowEngine.Status 0 0 = ((Fate.Pending, Op.zero), 0) := rfl
  simp only [hs, reduceCtorEq, if_false, ne_eq, not_false_eq_true, if_true,
    slowEngine_learn, Op.zero, not_true_eq_false]
  rfl

/-- C14, the code at the failing input: over an engine with maximum 1 whose
slot 0 stays `Pending` through the decision wait of the no-op proposal, the
forced decision fails (`learn` returns `Pending` and the zero command), yet the
catch-up pass of a fresh replica sets the frontier to 1.  Slot 0 is then
decided with a peer's `Put(a,1)`; the next pass starts at the frontier, does
not read slot 0, and `a` stays absent from the Store. -/
theorem frontier_passes_unresolved_slot :
    learn slowEngine 0 0 = ((Fate.Pending, Op.zero), 11) ∧
    slowPass1.2.1.processed = 1 ∧
    slowPass1.2.1.applied 5 = false ∧
    slowPass1.2.2 = 11 ∧
    (slowEngine.Status slowPass1.2.2 0).1 = (Fate.Decided, ⟨"a", "1", 5, 1, "Put"⟩) ∧
    slowPass2.2.1.processed = 1 ∧
    slowPass2.2.1.db "a" = none ∧
    slowPass2.1 = ("", Err.ErrNoKey) := by
  obtain ⟨h1, h2, _⟩ := updateDbAndGetValue_eq slowEngine (KVPaxos.init 0) 0 "a" _
    (slowEngine_loop (KVPaxos.init 0))
  have h1' : slowPass1.2.1 = { KVPaxos.init 0 with processed := 1 } := h1
  have h2' : slowPass1.2.2 = 11 := h2
  have hp2 : slowPass2 =
      updateDbAndGetValue slowEngine { KVPaxos.init 0 with processed := 1 } 11 "a" := by
    unfold slowPass2
    rw [h1', h2']
  refine ⟨slowEngine_learn, ?_, ?_, h2', ?_, ?_, ?_, ?_⟩
  · rw [h1']
  · rw [h1']; rfl
  · rw [h2']; rfl
  · rw [hp2]; rfl
  · rw [hp2]; rfl
  · rw [hp2]; rfl

/-! ### The Result cache -/

/-- C16: stale Result cache.  On a fresh replica over the engine that decides at
once, after `Put(a,1)` and `Put(b,2)`, the client 7 issues `Get(a)` with
command-id 21, answered `("1", OK)`, then `Get(b)` with command-id 22, answered
`("2", OK)`; a duplicate delivery of the first `Get` (key `a`, command-id 21,
already in the Seen set) is answered `OK` with `"2"`, the value returned to
the second `Get`, not `"1"`. -/
theorem stale_result_cache :
    (serveAll (instantEngine false) 1 (KVPaxos.init 0) InstantState.init
      [Request.Put "a" "1" 11, Request.Put "b" "2" 12, Request.Get "a" 21 7,
        Request.Get "b" 22 7, Request.Get "a" 21 7]).map (fun t => t.1) =
      some [Reply.putAppend ⟨Err.OK⟩, Reply.putAppend ⟨Err.OK⟩, Reply.get ⟨"1", Err.OK⟩,
        Reply.get ⟨"2", Err.OK⟩, Reply.get ⟨"2", Err.OK⟩] := by
  simp only [serveAll, serve, Get, PutAppend, makeAgreement, checkStatus_eq_waitOn]
  decide

/-! ### The candidate slot of a re-propose -/

theorem startsOf_append (a b : List Event) : startsOf (a ++ b) = startsOf a ++ startsOf b := by
  induction a with
  | nil => rfl
  | cons ev rest ih => cases ev <;> simp [startsOf, ih]

theorem maxesOf_append (a b : List Event) : maxesOf (a ++ b) = maxesOf a ++ maxesOf b := by
  induction a with
  | nil => rfl
  | cons ev rest ih => cases ev <;> simp [maxesOf, ih]

theorem missEvents_no_start_no_max (seq : Int) :
    ∀ (misses : List (Fate × Op)) (ds : List Nat),
      startsOf (missEvents seq misses ds) = [] ∧ maxesOf (missEvents seq misses ds) = [] := by
  intro misses
  induction misses with
  | nil => intro ds; simp [missEvents, startsOf, maxesOf]
  | cons a rest ih =>
    intro ds
    cases ds with
    | nil => simp [missEvents, startsOf, maxesOf]
    | cons d ds => simp [missEvents, startsOf, maxesOf, ih ds]

/-- The decision wait proposes nothing and does not ask for the maximum. -/
theorem checkStatus_no_start_no_max {E : Type} (px : Engine E) (seq : Int) (e : E)
    (t : List Event) :
    ∃ evs, (checkStatus (traced px) seq (e, t)).2.2 = t ++ evs ∧
      startsOf evs = [] ∧ maxesOf evs = [] := by
  obtain ⟨misses, _, _, _, hcases⟩ := checkStatus_trace px seq e t
  obtain ⟨h1, h2⟩ := missEvents_no_start_no_max seq misses backoff
  rcases hcases with ⟨v, _, _, htr⟩ | ⟨_, _, htr⟩
  · refine ⟨_, htr, ?_⟩
    rw [startsOf_append, maxesOf_append, h1, h2]
    exact ⟨rfl, rfl⟩
  · exact ⟨_, htr, h1, h2⟩

theorem makeAgreementLoop_starts {E : Type} (px : Engine E) (op : Op) :
    ∀ (fuel : Nat) (seq : Int) (status : Fate) (v : Op) (e : E) (t : List Event)
      (res : Bool × E × List Event),
      makeAgreementLoop (traced px) op fuel seq status v (e, t) = some res →
      ∃ evs n, res.2.2 = t ++ evs ∧
        startsOf evs = (List.range n).map (fun (i : Nat) => (seq + 1 + (i : Int), op)) ∧
        maxesOf evs = [] := by
  intro fuel
  induction fuel with
  | zero => intro seq status v e t res h; simp [makeAgreementLoop] at h
  | succ fuel ih =>
    intro seq status v e t res h
    unfold makeAgreementLoop at h
    split_ifs at h with h1 h2
    · simp only [Option.some.injEq] at h
      subst h
      exact ⟨[], 0, by simp, rfl, rfl⟩
    · have hst : (traced px).Start (e, t) (seq + 1) op =
          (px.Start e (seq + 1) op, t ++ [Event.Start (seq + 1) op]) := rfl
      rw [hst] at h
      dsimp only at h
      obtain ⟨evs1, htr1, hs1, hm1⟩ := checkStatus_no_start_no_max px (seq + 1)
        (px.Start e (seq + 1) op) (t ++ [Event.Start (seq + 1) op])
      obtain ⟨⟨⟨st1, v1⟩, e1, t1⟩, hr⟩ : ∃ r, checkStatus (traced px) (seq + 1)
        (px.Start e (seq + 1) op, t ++ [Event.Start (seq + 1) op]) = r := ⟨_, rfl⟩
      rw [hr] at h htr1
      simp only at h htr1
      obtain ⟨evs2, n, htr2, hs2, hm2⟩ := ih (seq + 1) st1 v1 e1 t1 res h
      refine ⟨[Event.Start (seq + 1) op] ++ evs1 ++ evs2, n + 1, ?_, ?_, ?_⟩
      · rw [htr2, htr1]; simp
      · rw [startsOf_append, startsOf_append, hs1, hs2, List.range_succ_eq_map]
        simp only [startsOf, List.append_nil, List.singleton_append, List.map_cons,
          List.map_map, Nat.cast_zero, add_zero, List.cons.injEq, true_and]
        apply List.map_congr_left
        intro i _
        simp only [Function.comp_apply, Nat.cast_succ, Prod.mk.injEq, and_true]
        omega
      · rw [maxesOf_append, maxesOf_append, hm1, hm2]
        rfl
    · simp only [Option.some.injEq] at h
      subst h
      exact ⟨[], 0, by simp, rfl, rfl⟩

/-- One turn of the loop of `makeAgreement`, with the decision wait expressed
over its schedule. -/
theorem makeAgreementLoop_step {E : Type} (px : Engine E) (op : Op) (fuel : Nat) (seq : Int)
    (status : Fate) (v : Op) (e : E) :
    makeAgreementLoop px op (fuel + 1) seq status v e =
      if v.JID ≠ op.JID then
        if status ≠ Fate.Decided then some (false, e)
        else
          makeAgreementLoop px op fuel (seq + 1)
            (waitOn px (seq + 1) (10 * Millisecond)
              (backoffTailMs.map fun ms => ms * Millisecond) (px.Start e (seq + 1) op)).1.1
            (waitOn px (seq + 1) (10 * Millisecond)
              (backoffTailMs.map fun ms => ms * Millisecond) (px.Start e (seq + 1) op)).1.2
            (waitOn px (seq + 1) (10 * Millisecond)
              (backoffTailMs.map fun ms => ms * Millisecond) (px.Start e (seq + 1) op)).2
      else some (true, e) := by
  rw [makeAgreementLoop]
  simp only [checkStatus_eq_waitOn]

/-- C17, counterexample: `PutAppend` for command-id 7 reads the engine maximum
10 and proposes at slot 11, which is decided with a peer's command.  At that
time the engine maximum is 20, so a candidate re-read from the engine would be
21; the re-propose is made at slot 12. -/
theorem repropose_not_reread :
    (PutAppend (traced crowdedEngine) 2 (KVPaxos.init 0) (none, [])
      ⟨"a", "1", "Put", 7⟩ PutAppendReply.zero).map (fun r => (r.1, r.2.2)) =
      some (⟨Err.OK⟩, some ⟨"a", "1", 7, 0, "Put"⟩,
        [Event.Max 10,
         Event.Start 11 ⟨"a", "1", 7, 0, "Put"⟩,
         Event.Status 11 Fate.Decided ⟨"x", "9", 99, 1, "Put"⟩,
         Event.Start 12 ⟨"a", "1", 7, 0, "Put"⟩,
         Event.Status 12 Fate.Decided ⟨"a", "1", 7, 0, "Put"⟩]) ∧
    (crowdedEngine.Max (some ⟨"a", "1", 7, 0, "Put"⟩)).1 + 1 = 21 ∧
    (12 : Int) ≠ (crowdedEngine.Max (some ⟨"a", "1", 7, 0, "Put"⟩)).1 + 1 := by
  refine ⟨?_, by decide, by decide⟩
  simp only [PutAppend, makeAgreement, checkStatus_eq_waitOn]
  rw [show (2 : Nat) = 0 + 1 + 1 from rfl]
  simp only [makeAgreementLoop_step]
  decide

/-- C17, amended: on every re-propose in the log sequencer the next candidate
slot is the previous candidate slot plus one.  Whenever `makeAgreement` returns,
the proposals it has made are of its command at the slots `seq, seq+1, ...,
seq+n` in that order, and it has not asked the engine for its maximum. -/
theorem makeAgreement_candidates {E : Type} (px : Engine E) (fuel : Nat) (seq : Int) (op : Op)
    (e : E) (t : List Event) (res : Bool × E × List Event)
    (h : makeAgreement (traced px) fuel seq op (e, t) = some res) :
    ∃ evs n, res.2.2 = t ++ evs ∧
      startsOf evs = (List.range (n + 1)).map (fun (i : Nat) => (seq + (i : Int), op)) ∧
      maxesOf evs = [] := by
  unfold makeAgreement at h
  have hst : (traced px).Start (e, t) seq op =
      (px.Start e seq op, t ++ [Event.Start seq op]) := rfl
  rw [hst] at h
  dsimp only at h
  obtain ⟨evs1, htr1, hs1, hm1⟩ := checkStatus_no_start_no_max px seq
    (px.Start e seq op) (t ++ [Event.Start seq op])
  obtain ⟨⟨⟨st1, v1⟩, e1, t1⟩, hr⟩ : ∃ r, checkStatus (traced px) seq
    (px.Start e seq op, t ++ [Event.Start seq op]) = r := ⟨_, rfl⟩
  rw [hr] at h htr1
  simp only at h htr1
  obtain ⟨evs2, n, htr2, hs2, hm2⟩ := makeAgreementLoop_starts px op fuel seq st1 v1 e1 t1 res h
  refine ⟨[Event.Start seq op] ++ evs1 ++ evs2, n, ?_, ?_, ?_⟩
  · rw [htr2, htr1]; simp
  · rw [startsOf_append, startsOf_append, hs1, hs2, List.range_succ_eq_map]
    simp only [startsOf, List.append_nil, List.singleton_append, List.map_cons,
      List.map_map, Nat.cast_zero, add_zero, List.cons.injEq, true_and]
    apply List.map_congr_left
    intro i _
    simp only [Function.comp_apply, Nat.cast_succ, Prod.mk.injEq, and_true]
    omega
  · rw [maxesOf_append, maxesOf_append, hm1, hm2]
    rfl

/-- C17, witness: the sequencer started at slot 11 of the busy engine proposes
at slots 11 and 12. -/
theorem makeAgreement_candidates_witness :
    makeAgreement (traced crowdedEngine) 2 11 ⟨"a", "1", 7, 0, "Put"⟩ (none, []) =
      some (true, some ⟨"a", "1", 7, 0, "Put"⟩,
        [Event.Start 11 ⟨"a", "1", 7, 0, "Put"⟩,
         Event.Status 11 Fate.Decided ⟨"x", "9", 99, 1, "Put"⟩,
         Event.Start 12 ⟨"a", "1", 7, 0, "Put"⟩,
         Event.Status 12 Fate.Decided ⟨"a", "1", 7, 0, "Put"⟩]) ∧
    ∃ evs n,
      [Event.Start 11 ⟨"a", "1", 7, 0, "Put"⟩,
         Event.Status 11 Fate.Decided ⟨"x", "9", 99, 1, "Put"⟩,
         Event.Start 12 ⟨"a", "1", 7, 0, "Put"⟩,
         Event.Status 12 Fate.Decided ⟨"a", "1", 7, 0, "Put"⟩] = [] ++ evs ∧
      startsOf evs = (List.range (n + 1)).map
        (fun (i : Nat) => ((11 : Int) + (i : Int), (⟨"a", "1", 7, 0, "Put"⟩ : Op))) ∧
      maxesOf evs = [] := by
  have hrun : makeAgreement (traced crowdedEngine) 2 11 ⟨"a", "1", 7, 0, "Put"⟩ (none, []) =
      some (true, some ⟨"a", "1", 7, 0, "Put"⟩,
        [Event.Start 11 ⟨"a", "1", 7, 0, "Put"⟩,
         Event.Status 11 Fate.Decided ⟨"x", "9", 99, 1, "Put"⟩,
         Event.Start 12 ⟨"a", "1", 7, 0, "Put"⟩,
         Event.Status 12 Fate.Decided ⟨"a", "1", 7, 0, "Put"⟩]) := by
    simp only [makeAgreement, checkStatus_eq_waitOn]
    rw [show (2 : Nat) = 0 + 1 + 1 from rfl]
    simp only [makeAgreementLoop_step]
    decide
  exact ⟨hrun, makeAgreement_candidates crowdedEngine 2 11 _ none [] _ hrun⟩

/-! ### The dedup tables and the frame of PutAppend -/

section

variable {E : Type}

theorem updateLoop_applied_mono (px : Engine E) :
    ∀ (n : Nat) (seq : Int) (kv : KVPaxos) (e : E) (j : Int), kv.applied j = true →
      (updateLoop px n seq kv e).1.applied j = true := by
  intro n
  induction n with
  | zero => intro seq kv e j h; exact h
  | succ n ih =>
    intro seq kv e j h
    unfold updateLoop
    simp only
    split_ifs
    · exact ih _ _ _ j (apply_applied_mono kv _ j h)
    · exact ih _ _ _ j (apply_applied_mono kv _ j h)
    · exact ih _ _ _ j h
    · exact ih _ _ _ j h

theorem updateDbAndGetValue_applied_mono (px : Engine E) (kv : KVPaxos) (e : E)
    (key : String) (j : Int) (h : kv.applied j = true) :
    (updateDbAndGetValue px kv e key).2.1.applied j = true := by
  obtain ⟨h1, _, _⟩ := updateDbAndGetValue_eq px kv e key _ rfl
  rw [h1]
  exact updateLoop_applied_mono px _ _ kv _ j h

theorem setAdd_self (m : Int → Bool) (k : Int) : setAdd m k k = true := by
  simp [setAdd]

theorem setAdd_mono (m : Int → Bool) (k j : Int) (h : m j = true) : setAdd m k j = true := by
  unfold setAdd
  split_ifs
  · rfl
  · exact h

/-- The frame of `PutAppend`: a call that returns leaves every field of the
replica but the Seen set as it was; the Seen set is unchanged (duplicate) or
gains the command-id of the request (first arrival). -/
theorem PutAppend_state (px : Engine E) (fuel : Nat) (kv : KVPaxos) (e : E)
    (args : PutAppendArgs) (reply : PutAppendReply) (res : PutAppendReply × KVPaxos × E)
    (h : PutAppend px fuel kv e args reply = some res) :
    (kv.log args.JID = true ∧ res.2.1 = kv ∧ res.1.Err = Err.OK) ∨
    (kv.log args.JID = false ∧ res.2.1 = { kv with log := setAdd kv.log args.JID } ∧
      (res.1.Err = Err.OK ∨ res.1.Err = Err.Timeout)) := by
  by_cases hlog : kv.log args.JID = true
  · rw [PutAppend_of_seen _ _ _ _ _ _ hlog] at h
    simp only [Option.some.injEq] at h
    subst h
    exact Or.inl ⟨hlog, rfl, rfl⟩
  · have hlog' : kv.log args.JID = false := by simpa using hlog
    rw [PutAppend_of_unseen _ _ _ _ _ _ hlog'] at h
    cases hm : makeAgreement px fuel ((px.Max e).1 + 1)
        ⟨args.Key, args.Value, args.JID, kv.me, args.Op⟩ (px.Max e).2 with
    | none => simp [hm] at h
    | some r =>
      simp only [hm, Option.map_some', Option.some.injEq] at h
      subst h
      refine Or.inr ⟨hlog', rfl, ?_⟩
      simp only
      split_ifs
      · exact Or.inr rfl
      · exact Or.inl rfl

/-- What a call of `Get` that returns does to the dedup tables. -/
theorem Get_tables (px : Engine E) (fuel : Nat) (kv : KVPaxos) (e : E)
    (args : GetArgs) (reply : GetReply) (res : GetReply × KVPaxos × E)
    (h : Get px fuel kv e args reply = some res) :
    (∀ j, kv.applied j = true → res.2.1.applied j = true) ∧
    (∀ j, kv.log j = true → res.2.1.log j = true) ∧
    res.2.1.log args.JID = true := by
  by_cases hlog : kv.log args.JID = true
  · rw [Get_of_seen _ _ _ _ _ _ hlog] at h
    simp only [Option.some.injEq] at h
    subst h
    exact ⟨fun j hj => hj, fun j hj => hj, hlog⟩
  · have hlog' : kv.log args.JID = false := by simpa using hlog
    cases hm : makeAgreement px fuel ((px.Max e).1 + 1)
        ⟨args.Key, "", args.JID, kv.me, "Get"⟩ (px.Max e).2 with
    | none =>
      unfold Get at h
      simp [hlog', hm] at h
    | some r =>
      obtain ⟨ok, e1⟩ := r
      cases ok with
      | false =>
        rw [Get_of_not_agreed _ _ _ _ _ _ e1 hlog' hm] at h
        simp only [Option.some.injEq] at h
        subst h
        exact ⟨fun j hj => hj, fun j hj => setAdd_mono _ _ j hj, setAdd_self _ _⟩
      | true =>
        obtain ⟨kv0, hkv0⟩ : ∃ kv0 : KVPaxos,
          kv0 = { kv with log := setAdd kv.log args.JID } := ⟨_, rfl⟩
        rw [Get_of_agreed _ _ _ _ _ _ e1 kv0 hkv0 hlog' hm] at h
        obtain ⟨_, _, hl, _⟩ := updateDbAndGetValue_frame px kv0 e1 args.Key
        have hap := updateDbAndGetValue_applied_mono px kv0 e1 args.Key
        have h0l : kv0.log = setAdd kv.log args.JID := by rw [hkv0]
        have h0a : kv0.applied = kv.applied := by rw [hkv0]
        simp only [Option.some.injEq] at h
        split_ifs at h
        · subst h
          simp only [hl, h0l]
          exact ⟨fun j hj => hap j (by rw [h0a]; exact hj),
            fun j hj => setAdd_mono _ _ j hj, setAdd_self _ _⟩
        · subst h
          simp only [hl, h0l]
          exact ⟨fun j hj => hap j (by rw [h0a]; exact hj),
            fun j hj => setAdd_mono _ _ j hj, setAdd_self _ _⟩

/-- C18: the dedup tables only grow.  For every replica state and every engine:
`apply` and the catch-up pass keep every command-id of the Applied set and
leave the Seen set as it is; a `Get` or `PutAppend` call that returns keeps
every command-id of the Applied set and of the Seen set, and after it the
command-id of the request is in the Seen set, whatever the reply. -/
theorem dedup_tables_only_grow (px : Engine E) (fuel : Nat) (kv : KVPaxos) (e : E) :
    (∀ (c : Op), (∀ j, kv.applied j = true → (apply kv c).applied j = true) ∧
      (apply kv c).log = kv.log) ∧
    (∀ (key : String),
      (∀ j, kv.applied j = true → (updateDbAndGetValue px kv e key).2.1.applied j = true) ∧
      (updateDbAndGetValue px kv e key).2.1.log = kv.log) ∧
    (∀ (args : GetArgs) (reply : GetReply) (res : GetReply × KVPaxos × E),
      Get px fuel kv e args reply = some res →
        (∀ j, kv.applied j = true → res.2.1.applied j = true) ∧
        (∀ j, kv.log j = true → res.2.1.log j = true) ∧
        res.2.1.log args.JID = true) ∧
    (∀ (args : PutAppendArgs) (reply : PutAppendReply) (res : PutAppendReply × KVPaxos × E),
      PutAppend px fuel kv e args reply = some res →
        (∀ j, kv.applied j = true → res.2.1.applied j = true) ∧
        (∀ j, kv.log j = true → res.2.1.log j = true) ∧
        res.2.1.log args.JID = true) := by
  refine ⟨?_, ?_, ?_, ?_⟩
  · intro c
    exact ⟨fun j hj => apply_applied_mono kv c j hj, (apply_frame kv c).2.2.1⟩
  · intro key
    exact ⟨fun j hj => updateDbAndGetValue_applied_mono px kv e key j hj,
      (updateDbAndGetValue_frame px kv e key).2.2.1⟩
  · intro args reply res h
    exact Get_tables px fuel kv e args reply res h
  · intro args reply res h
    rcases PutAppend_state px fuel kv e args reply res h with ⟨hl, hs, _⟩ | ⟨_, hs, _⟩
    · rw [hs]
      exact ⟨fun j hj => hj, fun j hj => hj, hl⟩
    · rw [hs]
      exact ⟨fun j hj => hj, fun j hj => setAdd_mono _ _ j hj, setAdd_self _ _⟩

/-- C19: the frame of `PutAppend`.  For every replica state, request and engine,
a `PutAppend` call that returns, whether first arrival or duplicate, replies
`OK` or `Timeout` and leaves Store, Applied set, Result cache, Applied frontier
and peer index unchanged; the Seen set is unchanged outside the command-id of
the request, which it holds after the call. -/
theorem putAppend_frame (px : Engine E) (fuel : Nat) (kv : KVPaxos) (e : E)
    (args : PutAppendArgs) (reply : PutAppendReply) (res : PutAppendReply × KVPaxos × E)
    (h : PutAppend px fuel kv e args reply = some res) :
    res.2.1.db = kv.db ∧ res.2.1.applied = kv.applied ∧ res.2.1.replied = kv.replied ∧
    res.2.1.processed = kv.processed ∧ res.2.1.me = kv.me ∧
    (res.2.1.log = kv.log ∨ res.2.1.log = setAdd kv.log args.JID) ∧
    (∀ j, j ≠ args.JID → res.2.1.log j = kv.log j) ∧
    res.2.1.log args.JID = true ∧
    (res.1.Err = Err.OK ∨ res.1.Err = Err.Timeout) := by
  rcases PutAppend_state px fuel kv e args reply res h with ⟨hl, hs, hr⟩ | ⟨_, hs, hr⟩
  · rw [hs]
    exact ⟨rfl, rfl, rfl, rfl, rfl, Or.inl rfl, fun _ _ => rfl, hl, Or.inl hr⟩
  · rw [hs]
    refine ⟨rfl, rfl, rfl, rfl, rfl, Or.inr rfl, ?_, setAdd_self _ _, hr⟩
    intro j hj
    simp [setAdd, hj]

end

/-- C19, witness: `Put(a,1)` with command-id 11 on a fresh replica over the
engine that decides at once. -/
theorem putAppend_frame_witness :
    PutAppend (instantEngine false) 1 (KVPaxos.init 0) InstantState.init
        ⟨"a", "1", "Put", 11⟩ PutAppendReply.zero =
      some (⟨Err.OK⟩, { KVPaxos.init 0 with log := setAdd (KVPaxos.init 0).log 11 },
        (instantEngine false).Start InstantState.init 0 ⟨"a", "1", 11, 0, "Put"⟩) ∧
    (setAdd (KVPaxos.init 0).log 11 = (KVPaxos.init 0).log ∨
      setAdd (KVPaxos.init 0).log 11 = setAdd (KVPaxos.init 0).log 11) ∧
    (∀ j, j ≠ 11 → setAdd (KVPaxos.init 0).log 11 j = (KVPaxos.init 0).log j) := by
  have hrun : PutAppend (instantEngine false) 1 (KVPaxos.init 0) InstantState.init
        ⟨"a", "1", "Put", 11⟩ PutAppendReply.zero =
      some (⟨Err.OK⟩, { KVPaxos.init 0 with log := setAdd (KVPaxos.init 0).log 11 },
        (instantEngine false).Start InstantState.init 0 ⟨"a", "1", 11, 0, "Put"⟩) := by
    rw [PutAppend_of_unseen _ _ _ _ _ _ rfl,
      makeAgreement_of_decided _ 0 _ _ _ (by decide) (by decide)]
    rfl
  have hf := putAppend_frame (instantEngine false) 1 (KVPaxos.init 0) InstantState.init
    ⟨"a", "1", "Put", 11⟩ PutAppendReply.zero _ hrun
  exact ⟨hrun, hf.2.2.2.2.2.1, hf.2.2.2.2.2.2.1⟩

end kvpaxos
